import Mathlib

/-
  Verification of the morphology post-processing core of `exaspim_swc_transform`.

  Embedded source files (shallow embedding, translated from the Python source):
  * `src/exaspim_swc_transform/cli.py`        -- orchestrator `run` (per-file stage loop,
                                                 failure recording, fail-fast propagation)
  * `src/exaspim_swc_transform/fix_types.py`  -- `fix_structure_assignment`
  * `src/exaspim_swc_transform/resample.py`   -- `_resample`, `resample_path`, `resample_tree`

  External library calls (networkx, scipy, SNT) are modelled by their documented
  semantics; each such modelling choice is recorded in the doc comment of the
  corresponding definition.
-/

namespace ExaSpimSwc

/-! ## Orchestrator: `cli.run`'s per-file stage loop

The per-file body of `run` (cli.py) performs, in textual order:
`transform` (read + registration + save), `resample_swc`, `fix_structure_assignment`
(stage name `type_assignment` in `_record_failure` calls), `annotate_swc_to_json`
(stage name `annotation`).  Each stage is wrapped in `try/except`: an error is
recorded via `_record_failure(report, stage, file, exc)` and, unless `--fail-fast`
is set, processing continues with the next file; with `--fail-fast` the exception
re-raises and aborts the run.  Stage effects on the report are the counters
`transformed`, `resampled`, `swc_outputs`, `json_outputs` and the `failed` list. -/

/-- Per-file stage operations of `cli.run`; `σ` is the per-file data flowing between
stages.  Each stage either produces the data for the next stage or fails with the
stringified exception. -/
structure StageFns (σ : Type) where
  transform : σ → Except String σ
  resample : σ → Except String σ
  typeAssign : σ → Except String σ
  annotate : σ → Except String σ

/-- The run report of `cli.run`: stage counters plus the `failed` list of
`(stage, file, error)` entries appended by `_record_failure`. -/
structure Report where
  transformed : Nat
  resampled : Nat
  swc_outputs : Nat
  json_outputs : Nat
  failed : List (String × String × String)
deriving Repr, DecidableEq

/-- The empty report `cli.run` starts from (counters zero, `failed` empty). -/
def Report.init : Report := ⟨0, 0, 0, 0, []⟩

/-- Record a failure entry, translating `_record_failure` (cli.py): appends
`(stage, file, message)` to the report's `failed` list. -/
def recordFailure (r : Report) (stage file msg : String) : Report :=
  { r with failed := r.failed ++ [(stage, file, msg)] }

/-- The per-file body of `cli.run`'s loop: runs the four stages in their textual
order, incrementing the matching counter after each success; on a stage error the
failure is recorded and the error is returned (second component) so the caller can
re-raise under fail-fast.  `none` means the file passed all stages. -/
def processFile {σ : Type} (fns : StageFns σ) (file : String) (s : σ) (r : Report) :
    Report × Option String :=
  match fns.transform s with
  | .error e => (recordFailure r "transform" file e, some e)
  | .ok s1 =>
    let r := { r with transformed := r.transformed + 1 }
    match fns.resample s1 with
    | .error e => (recordFailure r "resample" file e, some e)
    | .ok s2 =>
      let r := { r with resampled := r.resampled + 1 }
      match fns.typeAssign s2 with
      | .error e => (recordFailure r "type_assignment" file e, some e)
      | .ok s3 =>
        let r := { r with swc_outputs := r.swc_outputs + 1 }
        match fns.annotate s3 with
        | .error e => (recordFailure r "annotation" file e, some e)
        | .ok _ => ({ r with json_outputs := r.json_outputs + 1 }, none)

/-- The file loop of `cli.run`: files processed strictly in list order; a failing
file's error re-raises when `failFast` is set (aborting with the error), otherwise
the loop continues with the next file. -/
def runFiles {σ : Type} (fns : StageFns σ) (failFast : Bool) :
    List (String × σ) → Report → Except String Report
  | [], r => .ok r
  | (file, s) :: rest, r =>
    match processFile fns file s r with
    | (r', none) => runFiles fns failFast rest r'
    | (r', some e) => if failFast then .error e else runFiles fns failFast rest r'

/-- Orchestrator entry: the loop of `cli.run` started on the empty report. -/
def run {σ : Type} (fns : StageFns σ) (failFast : Bool) (files : List (String × σ)) :
    Except String Report :=
  runFiles fns failFast files Report.init

/-- The stage name and error message of the first failing stage for one file's
data, or `none` when all four stages succeed (mirrors the `try/except` chain of
the loop body). -/
def firstFail {σ : Type} (fns : StageFns σ) (s : σ) : Option (String × String) :=
  match fns.transform s with
  | .error e => some ("transform", e)
  | .ok s1 =>
    match fns.resample s1 with
    | .error e => some ("resample", e)
    | .ok s2 =>
      match fns.typeAssign s2 with
      | .error e => some ("type_assignment", e)
      | .ok s3 =>
        match fns.annotate s3 with
        | .error e => some ("annotation", e)
        | .ok _ => none

/-- Orchestration order claimed by the spec (section 4.3 / 2), stated as a
pipeline to compare with the implemented `processFile`.  Modelled from the spec's
words: "construct a MorphologyGraph → run StructureTypeAssigner → run
BranchResampler over every branch → hand the finished graph to the external
serializer and annotator", i.e. structure-type assignment BEFORE resampling. -/
def specOrderProcessFile {σ : Type} (fns : StageFns σ) (file : String) (s : σ) (r : Report) :
    Report × Option String :=
  match fns.transform s with
  | .error e => (recordFailure r "transform" file e, some e)
  | .ok s1 =>
    let r := { r with transformed := r.transformed + 1 }
    match fns.typeAssign s1 with
    | .error e => (recordFailure r "type_assignment" file e, some e)
    | .ok s2 =>
      let r := { r with swc_outputs := r.swc_outputs + 1 }
      match fns.resample s2 with
      | .error e => (recordFailure r "resample" file e, some e)
      | .ok s3 =>
        let r := { r with resampled := r.resampled + 1 }
        match fns.annotate s3 with
        | .error e => (recordFailure r "annotation" file e, some e)
        | .ok _ => ({ r with json_outputs := r.json_outputs + 1 }, none)

/-- Stage functions that thread an execution log (a list of stage names) through
the per-file data, with the final stage failing so that the accumulated order is
recorded in the report's `failed` entry. -/
def logFns : StageFns (List String) where
  transform := fun l => .ok (l ++ ["transform"])
  resample := fun l => .ok (l ++ ["resample"])
  typeAssign := fun l => .ok (l ++ ["type_assignment"])
  annotate := fun l => .error (String.intercalate ";" (l ++ ["annotation"]))

/-- Concrete stage functions used to witness the failure-policy theorem: file data
`7` fails at the resample stage with message "boom", all other data passes. -/
def wfns : StageFns Nat where
  transform := fun n => .ok n
  resample := fun n => if n = 7 then .error "boom" else .ok n
  typeAssign := fun n => .ok n
  annotate := fun n => .ok n

/-! ## Branch resampling: `resample.py`

`_resample(points, node_spacing, degree=1)` deduplicates the points
(`np.unique(..., axis=0, return_index=True)` followed by `points[np.sort(ind)]`,
i.e. keep the first occurrence of every distinct row, in original order), computes
the polyline length, builds the sample positions with float `divmod` plus
`np.linspace`, normalizes them to curve parameters with `np.clip(samples /
max(samples), 0, 1)`, and evaluates a `splprep`/`splev` curve at those parameters.

Floats are idealized as real numbers.  The scipy calls are modelled by their
documented semantics for the repository's fixed degree `k = 1`: when `u` is not
given, `splprep` parametrizes the points by cumulative chord length normalized to
`[0, 1]` (its documented default), and the fitted degree-1 spline is taken to
interpolate the points (the residual-based smoothing tolerance is neglected), so
evaluating the curve at parameter `t` yields the point at arc length `t * L`
along the deduplicated polyline.  Python exceptions are modelled as `Except`
errors carrying the exception name, raised at the same program points as in the
source (`divmod` by zero, `np.linspace` with negative sample count, `samples[-1]`
on an empty array, `max()` of an empty sequence, and `splprep`'s `m > k` check). -/

/-- A 3D point (one row of the `(n, 3)` numpy array). -/
abbrev Point : Type := ℝ × ℝ × ℝ

noncomputable section
open Classical

/-- Euclidean distance between two rows, as computed by
`np.sqrt(np.power(diff, 2).sum(axis=1))` for one row of `np.diff`. -/
def distR (p q : Point) : ℝ :=
  Real.sqrt ((p.1 - q.1) ^ 2 + (p.2.1 - q.2.1) ^ 2 + (p.2.2 - q.2.2) ^ 2)

/-- Total polyline length: the sum of consecutive-point distances
(`np.sqrt(np.power(diff, 2).sum(axis=1)).sum()`). -/
def polyLen : List Point → ℝ
  | p :: q :: rest => distR p q + polyLen (q :: rest)
  | _ => 0

/-- Helper for `dedupFirst`: drop every point already seen, keeping first
occurrences in order. -/
def dedupAux : List Point → List Point → List Point
  | _, [] => []
  | seen, p :: rest =>
    if p ∈ seen then dedupAux seen rest else p :: dedupAux (seen ++ [p]) rest

/-- Deduplication as performed by `np.unique(points, axis=0, return_index=True)`
followed by `points[np.sort(ind)]`: keep each distinct point value at its first
occurrence, preserving the original relative order. -/
def dedupFirst (ps : List Point) : List Point :=
  dedupAux [] ps

/-- Translation of `np.linspace(a, b, num)` with `endpoint=True`: `num` evenly
spaced values from `a` to `b` (`[a]` when `num = 1`, empty when `num = 0`). -/
def linspace (a b : ℝ) (num : ℕ) : List ℝ :=
  if num = 1 then [a]
  else (List.range num).map fun i : ℕ => a + (i : ℝ) * (b - a) / ((num : ℝ) - 1)

/-- Python's built-in `max` on a nonempty sequence (callers guard emptiness). -/
def maxList : List ℝ → ℝ
  | [] => 0
  | x :: xs => xs.foldl max x

/-- The point at arc length `d` along the polyline through the given points:
within the first segment interpolate linearly, otherwise recurse with the
remaining arc length.  This is the degree-1 `splprep` curve (chord-length
parametrization, interpolating fit) evaluated at normalized parameter
`d / polyLen`. -/
def polylineAt : List Point → ℝ → Point
  | [], _ => (0, 0, 0)
  | [p], _ => p
  | p :: q :: rest, d =>
    if d ≤ distR p q then
      (p.1 + d / distR p q * (q.1 - p.1),
       p.2.1 + d / distR p q * (q.2.1 - p.2.1),
       p.2.2 + d / distR p q * (q.2.2 - p.2.2))
    else polylineAt (q :: rest) (d - distR p q)

/-- The query-normalization plus curve-fit-and-evaluate tail of `_resample`:
`query_points = np.clip(samples / max(samples), 0, 1)` followed by
`splev(query_points, splprep(points.T, k=1))`.  Python's `max()` raises on an
empty sequence; `splprep` raises unless the point count `m` exceeds the degree
`k = 1`. -/
def splevAll (pts : List Point) (samples : List ℝ) : Except String (List Point) :=
  if samples = [] then .error "ValueError: max() arg is an empty sequence"
  else
    let m := maxList samples
    let query := samples.map fun x => min (max (x / m) 0) 1
    if pts.length ≤ 1 then .error "TypeError: m > k must hold"
    else .ok (query.map fun t => polylineAt pts (t * polyLen pts))

/-- Translation of `_resample(points, node_spacing)` (resample.py) at the
repository's fixed spline degree 1.  `quo, rem = divmod(length, node_spacing)`
raises `ZeroDivisionError` for zero spacing and otherwise gives
`quo = floor(length / node_spacing)`, `rem = length - quo * node_spacing`;
`np.linspace(0, node_spacing * quo, quo + 1)` raises for a negative sample count;
when `rem != 0`, `samples[-1]` raises on an empty sample array. -/
def resampleCore (points : List Point) (node_spacing : ℝ) : Except String (List Point) :=
  let pts := dedupFirst points
  let L := polyLen pts
  if node_spacing = 0 then .error "ZeroDivisionError: float divmod()"
  else
    let quo : ℤ := ⌊L / node_spacing⌋
    let rem : ℝ := L - quo * node_spacing
    if quo + 1 < 0 then .error "ValueError: Number of samples must be non-negative"
    else
      let base := linspace 0 (node_spacing * quo) (quo + 1).toNat
      if rem = 0 then splevAll pts base
      else
        match base.getLast? with
        | none => .error "IndexError: index -1 is out of bounds for axis 0 with size 0"
        | some last => splevAll pts (base ++ [last + rem])

/-- Translation of `resample_path(path, node_spacing, degree=1, start_joins)`:
when a start join is present, its join point (`path.getStartJoinsPoint()`) is
prepended to the path's points before anything else; if fewer than 2 points
remain the input path object is returned unchanged (`.ok none` here), otherwise
`_resample` runs and a fresh path is built from its output (`.ok (some out)`). -/
def resamplePathPts (pathPts : List Point) (node_spacing : ℝ) (startJoin : Option Point) :
    Except String (Option (List Point)) :=
  let pp := match startJoin with
    | some j => j :: pathPts
    | none => pathPts
  if pp.length < 2 then .ok none
  else (resampleCore pp node_spacing).map some

/-- The orchestrator's node-spacing validation (cli.py `run`):
`if args.node_spacing_um <= 0: raise ValueError(...)`, performed once per run
before any file is processed. -/
def validateNodeSpacing (x : ℝ) : Except String Unit :=
  if x ≤ 0 then .error "ValueError: --node-spacing-um must be > 0" else .ok ()

/-- Consecutive differences of a list of reals (used to state spacing between
successive sample positions). -/
def diffs (l : List ℝ) : List ℝ :=
  List.zipWith (fun a b => a - b) l.tail l

/-- Boolean inequality test against a fixed point (classical equality on real
coordinates), used to state which elements deduplication drops. -/
def neP (p : Point) : Point → Bool := fun q => decide (q ≠ p)

end

/-! ## Structure-type assignment: `fix_types.py`

`fix_structure_assignment` loads a `NeuronGraph` (a directed graph with one edge
parent → child per SWC parent pointer and mutable per-node `struct_type`
attributes), takes the first in-degree-0 node as the soma and labels it SOMA,
and, when the soma has children, selects the axon child by iterating
`graph.successors(soma)` in order with a strict `>` comparison on
`len(dag_longest_path(subgraph(descendants(child) ∪ child)))`, then marks each
soma-child subtree AXON or BASAL_DENDRITE with an explicit-stack traversal.

The networkx calls are modelled by their documented semantics on this graph
shape (each node has at most one parent): `descendants(g, c)` is the set of
nodes whose parent chain reaches `c`; `dag_longest_path` on the induced subtree
is a longest downward chain, so its node count is one plus the largest
parent-chain distance from a subtree node up to `c`; `in_degree(n) == 0` is
`parentOf n = none`; `successors` returns children in node order (adjacency
insertion order for a graph built from an SWC file).  The deterministic parent
chain of a well-formed graph revisits a node after at most `nodes.length`
steps, so that bound is exhaustive for reachability. -/

/-- A neuron graph as built by `NeuronGraph.from_swc`: node ids in file order
and the parent pointer from the SWC parent column. -/
structure NGraph where
  nodes : List Nat
  parentOf : Nat → Option Nat

/-- Iterate the parent pointer `k` times. -/
def iterParent (g : NGraph) : Nat → Nat → Option Nat
  | 0, m => some m
  | k + 1, m => (g.parentOf m).bind (iterParent g k)

/-- Subtree membership: `m` is `c` or one of its descendants
(`m ∈ nx.descendants(g, c)` or `m = c`), i.e. `m`'s parent chain reaches `c`
within `nodes.length` steps. -/
def inSubtreeB (g : NGraph) (c m : Nat) : Bool :=
  (List.range (g.nodes.length + 1)).any fun k => iterParent g k m == some c

/-- The roots list `[n for n in graph.nodes() if graph.in_degree(n) == 0]`. -/
def rootsList (g : NGraph) : List Nat :=
  g.nodes.filter fun m => (g.parentOf m).isNone

/-- `graph.successors(x)`: the children of `x`, in node order. -/
def successors (g : NGraph) (x : Nat) : List Nat :=
  g.nodes.filter fun m => g.parentOf m == some x

/-- The node count of `dag_longest_path` on the induced subgraph of `c` and its
descendants: one plus the largest parent-chain distance from a subtree node up
to `c`. -/
def depthOf (g : NGraph) (c : Nat) : Nat :=
  ((List.range (g.nodes.length + 1)).filter fun k =>
    g.nodes.any fun m => iterParent g k m == some c).foldl max 0 + 1

/-- The axon-selection loop of `fix_structure_assignment`: iterate the soma
children in order keeping the first child whose subtree depth strictly exceeds
the best so far (`axon_branch = None`, `longest_branch_length = 0`). -/
def selectAxon (g : NGraph) (children : List Nat) : Option Nat × Nat :=
  children.foldl
    (fun acc c => if depthOf g c > acc.2 then (some c, depthOf g c) else acc)
    (none, 0)

/-- SWC structure-type code `StructureTypes.SOMA.value`. -/
def somaType : Nat := 1

/-- SWC structure-type code `StructureTypes.AXON.value`. -/
def axonType : Nat := 2

/-- SWC structure-type code `StructureTypes.BASAL_DENDRITE.value`. -/
def basalDendriteType : Nat := 3

/-- Denotation of `mark_subtree_iterative` (fix_types.py): the explicit-stack
loop pops a node, sets its `struct_type`, and pushes its successors, so it
assigns the type to exactly the nodes of `start`'s subtree. -/
def markSubtree (g : NGraph) (labels : Nat → Nat) (start : Nat) (t : Nat) : Nat → Nat :=
  fun m => if inSubtreeB g start m then t else labels m

/-- Translation of `fix_structure_assignment` (fix_types.py) acting on the
node labeling (the `struct_type` attributes): zero roots raise `ValueError`;
the first root is the soma and is labeled SOMA; with no soma children the
labeling is saved as is; otherwise the axon child is selected by the strict
`>` fold (raising the defensive `ValueError` when none is found) and every
soma-child subtree is marked AXON or BASAL_DENDRITE. -/
def fixStructureAssignment (g : NGraph) (init : Nat → Nat) : Except String (Nat → Nat) :=
  match rootsList g with
  | [] => .error "ValueError: No root node (soma) found in the neuron graph"
  | soma :: _ =>
    let l1 : Nat → Nat := fun m => if m = soma then somaType else init m
    let children := successors g soma
    if children.isEmpty then .ok l1
    else
      match (selectAxon g children).1 with
      | none => .error "ValueError: Could not determine the longest branch from the soma"
      | some axon =>
        .ok (children.foldl
          (fun ls c =>
            markSubtree g ls c (if c = axon then axonType else basalDendriteType))
          l1)

/-- Root of the ancestor chain of `m`, within `fuel` parent steps: the
parentless ancestor, or `none` when `fuel` steps do not reach one. -/
def chainRoot (g : NGraph) : Nat → Nat → Option Nat
  | 0, m => if (g.parentOf m).isNone then some m else none
  | k + 1, m =>
    match g.parentOf m with
    | none => some m
    | some p => chainRoot g k p

/-- Well-formedness of a neuron graph (the MorphologyGraph forest invariant):
distinct node ids, parent pointers inside the node list, and every node's
ancestor chain terminating at a parentless node within `nodes.length` steps
(no parent cycles). -/
def WF (g : NGraph) : Prop :=
  g.nodes.Nodup ∧
  (∀ m ∈ g.nodes, ∀ p, g.parentOf m = some p → p ∈ g.nodes) ∧
  (∀ m ∈ g.nodes, (chainRoot g g.nodes.length m).isSome)

/-- Whether an `Except` computation succeeded (used to state that a call does
not raise). -/
def isOkE {ε α : Type} : Except ε α → Bool
  | .ok _ => true
  | .error _ => false

/-- Concrete five-node graph used in witnesses: root 0 with children 1 (subtree
depth 2 via node 3) and 2 (subtree depth 2 via node 4) — a depth tie that the
strict `>` selection resolves to the first child. -/
def gW : NGraph where
  nodes := [0, 1, 2, 3, 4]
  parentOf := fun m =>
    match m with
    | 1 => some 0
    | 2 => some 0
    | 3 => some 1
    | 4 => some 2
    | _ => none

/-- Concrete graph with two parentless nodes (two isolated roots). -/
def gTwoRoots : NGraph where
  nodes := [1, 2]
  parentOf := fun _ => none

/-- Concrete graph with no parentless node (a two-node parent cycle). -/
def gCyc : NGraph where
  nodes := [1, 2]
  parentOf := fun m =>
    match m with
    | 1 => some 2
    | 2 => some 1
    | _ => none

/-! ## Tree resampling and rewiring: `resample_tree` (resample.py)

`resample_tree` iterates over a snapshot of the tree's path list.  For each
original path it resamples it (`resample_path`, which returns the same path
object when the raw point count is below 2), adds the result to the tree,
transfers the original start join verbatim to the new path, rebinds every
current child of the original path to the node of the new path nearest to the
child's stored attachment point, and removes the original path from the tree.

SNT `Path` objects are modelled by an id-indexed store (object identity = id);
`getChildren()` is the set of path objects whose start join references the
path, derived from the store, matching SNT's object-level child bookkeeping;
`Tree.add`/`Tree.remove` are list append / first-occurrence erase;
`Path.createPath()` + `addNode` build a fresh path (fresh id) carrying the
resampled points and no start join; `Path.indexNearestTo(x, y, z, ∞)` scans the
path's nodes in order keeping the strictly best distance so far, so it returns
the first index attaining the minimum distance. -/

noncomputable section
open Classical

/-- An SNT `Path` as relevant to resampling: its node points and its start
join, `(joined parent path id, join point)`. -/
structure SPath where
  points : List Point
  startJoin : Option (Nat × Point)

/-- The object world of `resample_tree`: all path objects by id, the list of
created object ids, the tree's membership list, and a fresh-id counter. -/
structure World where
  store : Nat → SPath
  objects : List Nat
  tree : List Nat
  fresh : Nat

/-- Replace one path object in the store. -/
def setPath (w : World) (i : Nat) (p : SPath) : World :=
  { w with store := fun j => if j = i then p else w.store j }

/-- `path.getChildren()` for the path with id `i`: the created objects whose
start join references `i`. -/
def childrenOf (w : World) (i : Nat) : List Nat :=
  w.objects.filter fun c => ((w.store c).startJoin.map Prod.fst) == some i

/-- SNT `Path.indexNearestTo(x, y, z, ∞)`, modelled from its behavior: the
index of the node nearest to `p`, scanning nodes in order with a strict
improvement comparison, hence the first index attaining the minimum. -/
def nearestIdx (p : Point) : List Point → Nat
  | [] => 0
  | [_] => 0
  | q :: r :: rest =>
    let j := nearestIdx p (r :: rest)
    if distR q p ≤ distR ((r :: rest).getD j q) p then 0 else j + 1

/-- The child-rebinding loop of `resample_tree`: for each child, read its
stored attachment point, find the nearest node of the new path `rid`
(`indexNearestTo` then `getNode`), and rebind the child's start join
(`unsetStartJoin` + `setStartJoin`) to that node of `rid`. -/
def rebindChildren (rid : Nat) (cs : List Nat) (w : World) : World :=
  cs.foldl
    (fun wacc c =>
      match (wacc.store c).startJoin with
      | none => wacc
      | some s =>
        let pts := (wacc.store rid).points
        setPath wacc c
          { wacc.store c with
            startJoin := some (rid, pts.getD (nearestIdx s.2 pts) ((0:ℝ), (0:ℝ), (0:ℝ))) })
    w

/-- The start-join transfer of `resample_tree`'s loop body: when the original
path has a start join, `path.unsetStartJoin()` then
`resampled.setStartJoin(start_joins, start_joins_point)` — the same parent and
the same point, reused verbatim. -/
def joinTransfer (w : World) (pid rid : Nat) : World :=
  match (w.store pid).startJoin with
  | none => w
  | some s =>
    let wA := setPath w pid { w.store pid with startJoin := none }
    setPath wA rid { wA.store rid with startJoin := some s }

/-- The per-path tail of `resample_tree`'s loop body after the resampled path
`rid` exists: `tree.add(resampled)`; transfer the start join; rebind the
children of the original path; finally `tree.remove(path)`. -/
def rewireStep (w : World) (pid rid : Nat) : World :=
  let w1 : World := { w with tree := w.tree ++ [rid] }
  let w2 := joinTransfer w1 pid rid
  let w3 := rebindChildren rid (childrenOf w2 pid) w2
  { w3 with tree := w3.tree.erase pid }

/-- One iteration of `resample_tree`'s loop for the original path `pid`:
`resample_path` with the current start join (prepending its point), which
returns the same object when fewer than 2 raw points remain (`rid = pid`) and
otherwise builds a fresh path holding the resampled points; then the
rewiring tail. -/
def processPath (spacing : ℝ) (w : World) (pid : Nat) : Except String World :=
  let pp := match (w.store pid).startJoin with
    | some s => s.2 :: (w.store pid).points
    | none => (w.store pid).points
  if pp.length < 2 then .ok (rewireStep w pid pid)
  else
    match resampleCore pp spacing with
    | .error e => .error e
    | .ok newPts =>
      .ok (rewireStep
        { store := fun j => if j = w.fresh then ⟨newPts, none⟩ else w.store j
          objects := w.objects ++ [w.fresh]
          tree := w.tree
          fresh := w.fresh + 1 }
        pid w.fresh)

/-- The loop of `resample_tree` over a snapshot of path ids; a raised
resampling error propagates. -/
def processList (spacing : ℝ) : List Nat → World → Except String World
  | [], w => .ok w
  | pid :: rest, w =>
    match processPath spacing w pid with
    | .error e => .error e
    | .ok w' => processList spacing rest w'

/-- `resample_tree(tree, node_spacing)`: process every path of the snapshot
`paths = list(tree.list())` in order. -/
def resampleTree (spacing : ℝ) (w : World) : Except String World :=
  processList spacing w.tree w

/-- Invariant carried through `resample_tree`'s loop, with `remaining` the
not-yet-processed suffix of the path snapshot: object ids are distinct and
below the fresh counter, `remaining` and the tree reference created objects,
and every created path's start join references a distinct created path with at
least one node such that either the referenced path is still to be processed
or the join point is an actual node of the referenced path. -/
def JoinInv (w : World) (remaining : List Nat) : Prop :=
  w.objects.Nodup ∧
  (∀ o ∈ w.objects, o < w.fresh) ∧
  (∀ r ∈ remaining, r ∈ w.objects) ∧
  (∀ t ∈ w.tree, t ∈ w.objects) ∧
  (∀ c ∈ w.objects, ∀ i q, (w.store c).startJoin = some (i, q) →
    i ∈ w.objects ∧ i ≠ c ∧ (w.store i).points ≠ [] ∧
    (i ∈ remaining ∨ q ∈ (w.store i).points))

/-- Concrete two-path world used in witnesses: path 0 is a straight segment
from the origin to `(10,0,0)`; path 1 is joined to path 0 mid-branch at
attachment point `(4,0,0)`. -/
def wTree : World where
  store := fun i =>
    match i with
    | 0 => ⟨[((0:ℝ), (0:ℝ), (0:ℝ)), ((10:ℝ), (0:ℝ), (0:ℝ))], none⟩
    | 1 => ⟨[((4:ℝ), (0:ℝ), (0:ℝ)), ((4:ℝ), (5:ℝ), (0:ℝ))],
        some (0, ((4:ℝ), (0:ℝ), (0:ℝ)))⟩
    | _ => ⟨[], none⟩
  objects := [0, 1]
  tree := [0, 1]
  fresh := 2

/-- The world after `resample_tree`'s first iteration on `wTree`: path 0 has
been replaced by the fresh path 2 carrying the resampled points, and path 1's
start join was rebound to the nearest node of path 2. -/
def wT1 : World where
  store := fun i =>
    match i with
    | 0 => ⟨[((0:ℝ), (0:ℝ), (0:ℝ)), ((10:ℝ), (0:ℝ), (0:ℝ))], none⟩
    | 1 => ⟨[((4:ℝ), (0:ℝ), (0:ℝ)), ((4:ℝ), (5:ℝ), (0:ℝ))],
        some (2, ((0:ℝ), (0:ℝ), (0:ℝ)))⟩
    | 2 => ⟨[((0:ℝ), (0:ℝ), (0:ℝ)), ((10:ℝ), (0:ℝ), (0:ℝ))], none⟩
    | _ => ⟨[], none⟩
  objects := [0, 1, 2]
  tree := [1, 2]
  fresh := 3

/-- The world after `resample_tree`'s second iteration on `wTree`: path 1 has
been replaced by the fresh path 3, which inherits path 1's rebound start join
on path 2 verbatim. -/
def wT2 : World where
  store := fun i =>
    match i with
    | 0 => ⟨[((0:ℝ), (0:ℝ), (0:ℝ)), ((10:ℝ), (0:ℝ), (0:ℝ))], none⟩
    | 1 => ⟨[((4:ℝ), (0:ℝ), (0:ℝ)), ((4:ℝ), (5:ℝ), (0:ℝ))], none⟩
    | 2 => ⟨[((0:ℝ), (0:ℝ), (0:ℝ)), ((10:ℝ), (0:ℝ), (0:ℝ))], none⟩
    | 3 => ⟨[((0:ℝ), (0:ℝ), (0:ℝ)), ((4:ℝ), (5:ℝ), (0:ℝ))],
        some (2, ((0:ℝ), (0:ℝ), (0:ℝ)))⟩
    | _ => ⟨[], none⟩
  objects := [0, 1, 2, 3]
  tree := [2, 3]
  fresh := 4

end

theorem processFile_failed {σ : Type} (fns : StageFns σ) (file : String) (s : σ) (r : Report) :
    (processFile fns file s r).1.failed =
      r.failed ++ (match firstFail fns s with
        | some (st, e) => [(st, file, e)]
        | none => []) := by
  unfold processFile firstFail
  rcases h1 : fns.transform s with e | s1
  · simp [h1, recordFailure]
  · rcases h2 : fns.resample s1 with e | s2
    · simp [h1, h2, recordFailure]
    · rcases h3 : fns.typeAssign s2 with e | s3
      · simp [h1, h2, h3, recordFailure]
      · rcases h4 : fns.annotate s3 with e | s4
        · simp [h1, h2, h3, h4, recordFailure]
        · simp [h1, h2, h3, h4]

theorem processFile_snd {σ : Type} (fns : StageFns σ) (file : String) (s : σ) (r : Report) :
    (processFile fns file s r).2 = (firstFail fns s).map Prod.snd := by
  unfold processFile firstFail
  rcases h1 : fns.transform s with e | s1
  · simp [h1, recordFailure]
  · rcases h2 : fns.resample s1 with e | s2
    · simp [h1, h2, recordFailure]
    · rcases h3 : fns.typeAssign s2 with e | s3
      · simp [h1, h2, h3, recordFailure]
      · rcases h4 : fns.annotate s3 with e | s4
        · simp [h1, h2, h3, h4, recordFailure]
        · simp [h1, h2, h3, h4]

theorem runFiles_false_ok {σ : Type} (fns : StageFns σ) :
    ∀ (files : List (String × σ)) (r : Report),
      ∃ r2, runFiles fns false files r = .ok r2 ∧
        r2.failed = r.failed ++
          files.filterMap (fun fs => (firstFail fns fs.2).map (fun se => (se.1, fs.1, se.2))) := by
  intro files
  induction files with
  | nil => intro r; exact ⟨r, rfl, by simp⟩
  | cons fs rest ih =>
    intro r
    obtain ⟨file, s⟩ := fs
    rcases hpf : processFile fns file s r with ⟨r1, o⟩
    have hsnd := processFile_snd fns file s r
    have hfail := processFile_failed fns file s r
    rw [hpf] at hsnd hfail
    simp only at hsnd hfail
    obtain ⟨r2, h1, h2⟩ := ih r1
    cases hff : firstFail fns s with
    | none =>
      rw [hff] at hsnd hfail
      refine ⟨r2, ?_, ?_⟩
      · simp only [runFiles, hpf]
        rw [hsnd]
        exact h1
      · rw [h2, hfail]
        simp [hff]
    | some se =>
      obtain ⟨st, e⟩ := se
      rw [hff] at hsnd hfail
      refine ⟨r2, ?_, ?_⟩
      · simp only [runFiles, hpf]
        rw [hsnd]
        simpa using h1
      · rw [h2, hfail]
        simp [hff]

theorem runFiles_true_abort {σ : Type} (fns : StageFns σ) :
    ∀ (pre : List (String × σ)) (r : Report) (file : String) (s : σ)
      (post : List (String × σ)) (st e : String),
      (∀ fs ∈ pre, firstFail fns fs.2 = none) →
      firstFail fns s = some (st, e) →
      runFiles fns true (pre ++ (file, s) :: post) r = .error e := by
  intro pre
  induction pre with
  | nil =>
    intro r file s post st e _ hfs
    rcases hpf : processFile fns file s r with ⟨r1, o⟩
    have hsnd := processFile_snd fns file s r
    rw [hpf, hfs] at hsnd
    simp only at hsnd
    simp [runFiles, hpf, hsnd]
  | cons fs pre ih =>
    intro r file s post st e hpre hfs
    obtain ⟨f0, s0⟩ := fs
    have h0 : firstFail fns s0 = none := hpre ⟨f0, s0⟩ (List.mem_cons_self _ _)
    rcases hpf : processFile fns f0 s0 r with ⟨r1, o⟩
    have hsnd := processFile_snd fns f0 s0 r
    rw [hpf, h0] at hsnd
    simp only [Option.map_none'] at hsnd
    have : ((f0, s0) :: pre) ++ (file, s) :: post = (f0, s0) :: (pre ++ (file, s) :: post) := rfl
    rw [this]
    simp only [runFiles, hpf, hsnd]
    exact ih r1 file s post st e (fun x hx => hpre x (List.mem_cons_of_mem _ hx)) hfs

/-- C10: with fail-fast off, the orchestrator run always completes, and its
recorded failure list contains exactly one `(stage, file, message)` entry per file
whose processing failed, in file order — so a failing file is recorded and the
remaining files are still processed.  With fail-fast on, as soon as a file fails
(all earlier files having succeeded) the error propagates out of the run, and the
outcome is independent of the files that come after the failing one (they are not
processed). -/
theorem c10_failure_policy :
    (∀ (σ : Type) (fns : StageFns σ) (files : List (String × σ)),
      ∃ r, run fns false files = .ok r ∧
        r.failed =
          files.filterMap (fun fs => (firstFail fns fs.2).map (fun se => (se.1, fs.1, se.2)))) ∧
    (∀ (σ : Type) (fns : StageFns σ) (pre : List (String × σ)) (file : String) (s : σ)
      (post post' : List (String × σ)) (st e : String),
      (∀ fs ∈ pre, firstFail fns fs.2 = none) →
      firstFail fns s = some (st, e) →
      run fns true (pre ++ (file, s) :: post) = .error e ∧
      run fns true (pre ++ (file, s) :: post) = run fns true (pre ++ (file, s) :: post')) := by
  constructor
  · intro σ fns files
    obtain ⟨r2, h1, h2⟩ := runFiles_false_ok fns files Report.init
    exact ⟨r2, h1, by simpa [Report.init] using h2⟩
  · intro σ fns pre file s post post' st e hpre hfs
    have ha := runFiles_true_abort fns pre Report.init file s post st e hpre hfs
    have hb := runFiles_true_abort fns pre Report.init file s post' st e hpre hfs
    exact ⟨ha, by rw [run, run, ha, hb]⟩

theorem c10_failure_policy_witness :
    (∀ fs ∈ [("a", 1)], firstFail wfns fs.2 = none) ∧
    firstFail wfns 7 = some ("resample", "boom") ∧
    run wfns true [("a", 1), ("b", 7), ("c", 1)] = .error "boom" ∧
    run wfns true [("a", 1), ("b", 7), ("c", 1)] = run wfns true [("a", 1), ("b", 7), ("c", 9)] := by
  have h := c10_failure_policy.2 Nat wfns [("a", 1)] "b" 7 [("c", 1)] [("c", 9)] "resample" "boom"
    (by decide) (by decide)
  exact ⟨by decide, by decide, h.1, h.2⟩

/-- C8 (claim as stated is false): the claimed stage order runs the structure-type
assigner before the branch resampler.  Instrumenting the stages with an execution
log whose final stage fails (so the log is recorded in the report) shows that the
implemented per-file body and the spec-ordered pipeline produce different outcomes
on the same input: the implementation resamples before assigning types. -/
theorem c8_spec_order_refuted :
    processFile logFns "f.swc" [] Report.init ≠ specOrderProcessFile logFns "f.swc" [] Report.init := by
  decide

/-- C8 (amended): for every input file, the orchestrator's per-file body runs the
stages in the order transform → resample → type assignment → annotation; in
particular structure-type assignment happens AFTER resampling.  Stated through the
logging instrumentation: the trace accumulated through the stages always comes out
in exactly that order, for any file name, any initial log and any initial report. -/
theorem c8_stage_order (file : String) (l0 : List String) (r : Report) :
    processFile logFns file l0 r =
      (recordFailure
        { r with
          transformed := r.transformed + 1
          resampled := r.resampled + 1
          swc_outputs := r.swc_outputs + 1 }
        "annotation" file
        (String.intercalate ";" (l0 ++ ["transform", "resample", "type_assignment", "annotation"])),
       some (String.intercalate ";"
         (l0 ++ ["transform", "resample", "type_assignment", "annotation"]))) := by
  simp [processFile, logFns, List.append_assoc]

/-! ### Deduplication lemmas -/

theorem dedupAux_sublist : ∀ (l seen : List Point), List.Sublist (dedupAux seen l) l := by
  intro l
  induction l with
  | nil => intro seen; simp [dedupAux]
  | cons p rest ih =>
    intro seen
    by_cases h : p ∈ seen
    · simp only [dedupAux, if_pos h]
      exact (ih seen).cons p
    · simp only [dedupAux, if_neg h]
      exact (ih (seen ++ [p])).cons₂ p

theorem mem_dedupAux : ∀ (l seen : List Point) (x : Point),
    x ∈ dedupAux seen l ↔ x ∈ l ∧ x ∉ seen := by
  intro l
  induction l with
  | nil => intro seen x; simp [dedupAux]
  | cons p rest ih =>
    intro seen x
    by_cases h : p ∈ seen
    · rw [dedupAux, if_pos h, ih]
      constructor
      · rintro ⟨hx, hns⟩
        exact ⟨List.mem_cons_of_mem _ hx, hns⟩
      · rintro ⟨hx, hns⟩
        rcases List.mem_cons.mp hx with rfl | hx
        · exact absurd h hns
        · exact ⟨hx, hns⟩
    · rw [dedupAux, if_neg h]
      simp only [List.mem_cons, ih]
      constructor
      · rintro (rfl | ⟨hx, hns⟩)
        · exact ⟨Or.inl rfl, h⟩
        · exact ⟨Or.inr hx, fun hc => hns (List.mem_append_left _ hc)⟩
      · rintro ⟨rfl | hx, hns⟩
        · exact Or.inl rfl
        · by_cases hxp : x = p
          · exact Or.inl hxp
          · refine Or.inr ⟨hx, fun hc => ?_⟩
            rcases List.mem_append.mp hc with hc | hc
            · exact hns hc
            · rw [List.mem_singleton] at hc
              exact hxp hc

theorem nodup_dedupAux : ∀ (l seen : List Point), (dedupAux seen l).Nodup := by
  intro l
  induction l with
  | nil => intro seen; simp [dedupAux]
  | cons p rest ih =>
    intro seen
    by_cases h : p ∈ seen
    · rw [dedupAux, if_pos h]
      exact ih seen
    · rw [dedupAux, if_neg h]
      refine List.Nodup.cons (fun hc => ?_) (ih _)
      rcases (mem_dedupAux _ _ _).mp hc with ⟨_, hns⟩
      exact hns (List.mem_append_right _ (List.mem_singleton.mpr rfl))

theorem nodup_dedupFirst (ps : List Point) : (dedupFirst ps).Nodup :=
  nodup_dedupAux ps []

theorem mem_dedupFirst (ps : List Point) (x : Point) : x ∈ dedupFirst ps ↔ x ∈ ps := by
  rw [dedupFirst, mem_dedupAux]
  simp

theorem dedupFirst_sublist (ps : List Point) : List.Sublist (dedupFirst ps) ps :=
  dedupAux_sublist ps []

open Classical in
theorem dedupAux_append : ∀ (l s1 s2 : List Point),
    dedupAux (s1 ++ s2) l = dedupAux s2 (l.filter fun q => decide (q ∉ s1)) := by
  intro l
  induction l with
  | nil => intro s1 s2; simp [dedupAux]
  | cons p rest ih =>
    intro s1 s2
    rw [List.filter_cons]
    by_cases h1 : p ∈ s1
    · have hm : p ∈ s1 ++ s2 := List.mem_append_left _ h1
      have hd : (decide (p ∉ s1)) = false := by simp [h1]
      rw [hd, dedupAux, if_pos hm]
      simpa using ih s1 s2
    · have hd : (decide (p ∉ s1)) = true := by simp [h1]
      rw [hd]
      simp only [if_true]
      by_cases h2 : p ∈ s2
      · have hm : p ∈ s1 ++ s2 := List.mem_append_right _ h2
        rw [dedupAux, if_pos hm, dedupAux, if_pos h2]
        exact ih s1 s2
      · have hm : p ∉ s1 ++ s2 := by
          intro hc
          rcases List.mem_append.mp hc with hc | hc
          · exact h1 hc
          · exact h2 hc
        rw [dedupAux, if_neg hm, dedupAux, if_neg h2]
        congr 1
        have := ih s1 (s2 ++ [p])
        rw [← List.append_assoc] at this
        exact this

open Classical in
theorem dedupFirst_cons (p : Point) (rest : List Point) :
    dedupFirst (p :: rest) = p :: dedupFirst (rest.filter fun q => decide (q ≠ p)) := by
  unfold dedupFirst
  have h0 : dedupAux [] (p :: rest) = p :: dedupAux ([p] ++ []) rest := by
    rw [dedupAux, if_neg (List.not_mem_nil p)]
    simp
  rw [h0, dedupAux_append]
  congr 2
  apply List.filter_congr
  intro q _
  rw [decide_eq_decide]
  simp

/-! ### Geometry lemmas -/

theorem distR_nonneg (p q : Point) : 0 ≤ distR p q := Real.sqrt_nonneg _

theorem distR_eq_zero_iff (p q : Point) : distR p q = 0 ↔ p = q := by
  obtain ⟨p1, p2, p3⟩ := p
  obtain ⟨q1, q2, q3⟩ := q
  unfold distR
  constructor
  · intro h
    have hS : (p1 - q1) ^ 2 + (p2 - q2) ^ 2 + (p3 - q3) ^ 2 = 0 := by
      have h0 : (0:ℝ) ≤ (p1 - q1) ^ 2 + (p2 - q2) ^ 2 + (p3 - q3) ^ 2 := by positivity
      exact (Real.sqrt_eq_zero h0).mp h
    have h1 : p1 = q1 := by nlinarith [sq_nonneg (p1 - q1), sq_nonneg (p2 - q2), sq_nonneg (p3 - q3)]
    have h2 : p2 = q2 := by nlinarith [sq_nonneg (p1 - q1), sq_nonneg (p2 - q2), sq_nonneg (p3 - q3)]
    have h3 : p3 = q3 := by nlinarith [sq_nonneg (p1 - q1), sq_nonneg (p2 - q2), sq_nonneg (p3 - q3)]
    simp [h1, h2, h3]
  · intro h
    obtain ⟨h1, h2, h3⟩ : p1 = q1 ∧ p2 = q2 ∧ p3 = q3 := by
      simpa [Prod.ext_iff] using h
    simp [h1, h2, h3]

theorem distR_pos {p q : Point} (h : p ≠ q) : 0 < distR p q :=
  lt_of_le_of_ne (distR_nonneg p q) (fun hc => h ((distR_eq_zero_iff p q).mp hc.symm))

theorem polyLen_nonneg : ∀ l : List Point, 0 ≤ polyLen l := by
  intro l
  induction l with
  | nil => simp [polyLen]
  | cons p rest ih =>
    cases rest with
    | nil => simp [polyLen]
    | cons q rest' =>
      rw [polyLen]
      have := distR_nonneg p q
      linarith

theorem polyLen_pos : ∀ l : List Point, l.Nodup → 2 ≤ l.length → 0 < polyLen l := by
  intro l hnd hlen
  match l, hlen with
  | p :: q :: rest, _ =>
    rw [polyLen]
    have hpq : p ≠ q := by
      intro hc
      subst hc
      exact (List.nodup_cons.mp hnd).1 (List.mem_cons_self _ _)
    have := distR_pos hpq
    have := polyLen_nonneg (q :: rest)
    linarith

theorem polyLen_short : ∀ l : List Point, l.length ≤ 1 → polyLen l = 0 := by
  intro l hl
  match l, hl with
  | [], _ => rfl
  | [p], _ => rfl

/-! ### Sample-position arithmetic -/

theorem foldl_max_init_le : ∀ (xs : List ℝ) (a : ℝ), a ≤ xs.foldl max a := by
  intro xs
  induction xs with
  | nil => intro a; simp
  | cons x xs ih =>
    intro a
    calc a ≤ max a x := le_max_left _ _
      _ ≤ xs.foldl max (max a x) := ih _

theorem mem_le_foldl_max : ∀ (xs : List ℝ) (a x : ℝ), x ∈ xs → x ≤ xs.foldl max a := by
  intro xs
  induction xs with
  | nil => intro a x hx; exact absurd hx (List.not_mem_nil x)
  | cons y ys ih =>
    intro a x hx
    rcases List.mem_cons.mp hx with rfl | hx
    · calc x ≤ max a x := le_max_right _ _
        _ ≤ ys.foldl max (max a x) := foldl_max_init_le _ _
    · exact ih (max a y) x hx

theorem foldl_max_mem : ∀ (xs : List ℝ) (a : ℝ), xs.foldl max a = a ∨ xs.foldl max a ∈ xs := by
  intro xs
  induction xs with
  | nil => intro a; exact Or.inl rfl
  | cons y ys ih =>
    intro a
    rcases ih (max a y) with h | h
    · rcases max_choice a y with hm | hm
      · exact Or.inl (by rw [List.foldl_cons, h, hm])
      · exact Or.inr (by rw [List.foldl_cons, h, hm]; exact List.mem_cons_self _ _)
    · exact Or.inr (List.mem_cons_of_mem _ h)

theorem le_maxList {l : List ℝ} {x : ℝ} (hx : x ∈ l) : x ≤ maxList l := by
  cases l with
  | nil => exact absurd hx (List.not_mem_nil x)
  | cons y ys =>
    rcases List.mem_cons.mp hx with rfl | hx
    · exact foldl_max_init_le ys x
    · exact mem_le_foldl_max ys y x hx

theorem maxList_mem {l : List ℝ} (h : l ≠ []) : maxList l ∈ l := by
  cases l with
  | nil => exact absurd rfl h
  | cons y ys =>
    rcases foldl_max_mem ys y with h1 | h1
    · rw [maxList, h1]; exact List.mem_cons_self _ _
    · exact List.mem_cons_of_mem _ h1

theorem maxList_eq {l : List ℝ} {m : ℝ} (hub : ∀ x ∈ l, x ≤ m) (hmem : m ∈ l) :
    maxList l = m := by
  have h1 : maxList l ≤ m := hub _ (maxList_mem (List.ne_nil_of_mem hmem))
  have h2 : m ≤ maxList l := le_maxList hmem
  linarith

theorem linspace_map (s : ℝ) (n : ℕ) :
    linspace 0 (s * n) (n + 1) = (List.range (n + 1)).map fun i : ℕ => (i : ℝ) * s := by
  cases n with
  | zero => simp [linspace, List.range_succ]
  | succ m =>
    rw [linspace, if_neg (by omega)]
    apply List.map_congr_left
    intro i _
    have hm : ((m : ℝ) + 1) ≠ 0 := by positivity
    push_cast
    field_simp
    ring

theorem diffs_single (a : ℝ) : diffs [a] = [] := rfl

theorem diffs_cons (a b : ℝ) (t : List ℝ) : diffs (a :: b :: t) = (b - a) :: diffs (b :: t) := rfl

theorem diffs_map_range (s : ℝ) :
    ∀ (n : ℕ) (g : ℕ → ℝ), (∀ i, g (i + 1) - g i = s) →
      diffs ((List.range (n + 1)).map g) = List.replicate n s := by
  intro n
  induction n with
  | zero => intro g _; simp [diffs, List.range_succ]
  | succ m ih =>
    intro g hg
    rw [List.range_succ_eq_map]
    rw [List.map_cons, List.map_map]
    have hrw : (List.range (m + 1)).map (g ∘ (· + 1)) =
        (List.range (m + 1)).map fun i => g (i + 1) := rfl
    rw [hrw]
    have hh : (List.range (m + 1)).map (fun i => g (i + 1)) =
        g 1 :: (List.range m).map fun i => g (i + 1 + 1) := by
      rw [List.range_succ_eq_map, List.map_cons, List.map_map]
      rfl
    rw [hh, diffs_cons, hg 0, ← hh]
    rw [ih (fun i => g (i + 1)) (fun i => hg (i + 1))]
    rfl

theorem diffs_append_last : ∀ (l : List ℝ) (x : ℝ) (h : l ≠ []),
    diffs (l ++ [x]) = diffs l ++ [x - l.getLast h] := by
  intro l
  induction l with
  | nil => intro x h; exact absurd rfl h
  | cons a t ih =>
    intro x h
    cases t with
    | nil => simp [diffs]
    | cons b t' =>
      have : (a :: b :: t') ++ [x] = a :: ((b :: t') ++ [x]) := rfl
      rw [this]
      have hcons : (b :: t') ++ [x] = b :: (t' ++ [x]) := rfl
      rw [hcons, diffs_cons, ← hcons, ih x (by simp), diffs_cons]
      simp [List.getLast_cons]

theorem base_getLast (s : ℝ) (n : ℕ) :
    (((List.range (n + 1)).map fun i : ℕ => (i : ℝ) * s)).getLast? = some ((n : ℝ) * s) := by
  rw [List.range_succ, List.map_append]
  exact List.getLast?_concat _

theorem splevAll_eval (pts : List Point) (samples : List ℝ)
    (hne : samples ≠ [])
    (hnn : ∀ x ∈ samples, 0 ≤ x)
    (hmax : maxList samples = polyLen pts)
    (hlen : 2 ≤ pts.length)
    (hLpos : 0 < polyLen pts) :
    splevAll pts samples = .ok (samples.map (polylineAt pts)) := by
  simp only [splevAll]
  rw [if_neg hne, if_neg (by omega)]
  congr 1
  rw [List.map_map]
  apply List.map_congr_left
  intro x hx
  have hmpos : 0 < maxList samples := by rw [hmax]; exact hLpos
  have h0 : 0 ≤ x / maxList samples := div_nonneg (hnn x hx) (le_of_lt hmpos)
  have h1 : x / maxList samples ≤ 1 :=
    div_le_one_of_le₀ (le_maxList hx) (le_of_lt hmpos)
  simp only [Function.comp_apply]
  rw [max_eq_left h0, min_eq_left h1, hmax, div_mul_cancel₀ x (ne_of_gt hLpos)]

theorem resampleCore_ok_eq (points : List Point) (s : ℝ) (hs : 0 < s)
    (h2 : 2 ≤ (dedupFirst points).length) :
    resampleCore points s =
      .ok (((List.range ((⌊polyLen (dedupFirst points) / s⌋).toNat + 1)).map
            (fun i : ℕ => (i : ℝ) * s) ++
          (if polyLen (dedupFirst points) - ⌊polyLen (dedupFirst points) / s⌋ * s = 0 then []
           else [polyLen (dedupFirst points)])).map
        (polylineAt (dedupFirst points))) := by
  have hnd := nodup_dedupFirst points
  set pts := dedupFirst points with hpts
  set L := polyLen pts with hLdef
  have hLpos : 0 < L := polyLen_pos pts hnd h2
  have hsne : s ≠ 0 := ne_of_gt hs
  have hq0 : (0 : ℤ) ≤ ⌊L / s⌋ := Int.floor_nonneg.mpr (by positivity)
  set q : ℤ := ⌊L / s⌋ with hqdef
  set n : ℕ := q.toNat with hndef
  have hqn : (q : ℝ) = (n : ℝ) := by exact_mod_cast (Int.toNat_of_nonneg hq0).symm
  have hquos : (q : ℝ) * s ≤ L := by
    have hfl : ((⌊L / s⌋ : ℤ) : ℝ) ≤ L / s := Int.floor_le (L / s)
    rw [← hqdef] at hfl
    calc (q : ℝ) * s ≤ (L / s) * s := mul_le_mul_of_nonneg_right hfl (le_of_lt hs)
      _ = L := div_mul_cancel₀ L hsne
  have hrem_lt : L - (q : ℝ) * s < s := by
    have hfl : L / s < ((⌊L / s⌋ : ℤ) : ℝ) + 1 := Int.lt_floor_add_one (L / s)
    rw [← hqdef] at hfl
    have h' : L < ((q : ℝ) + 1) * s := by
      calc L = (L / s) * s := (div_mul_cancel₀ L hsne).symm
        _ < ((q : ℝ) + 1) * s := mul_lt_mul_of_pos_right hfl hs
    linarith
  have hrem0 : 0 ≤ L - (q : ℝ) * s := by linarith
  have htn : (q + 1).toNat = n + 1 := by omega
  have hlenpts : 2 ≤ pts.length := h2
  simp only [resampleCore]
  rw [← hpts, ← hLdef, ← hqdef]
  rw [if_neg hsne, if_neg (by omega), htn, hqn, linspace_map s n]
  have hnn_base : ∀ x ∈ (List.range (n + 1)).map (fun i : ℕ => (i : ℝ) * s), 0 ≤ x := by
    intro x hx
    rcases List.mem_map.mp hx with ⟨i, _, rfl⟩
    positivity
  have hub_base : ∀ x ∈ (List.range (n + 1)).map (fun i : ℕ => (i : ℝ) * s), x ≤ (n : ℝ) * s := by
    intro x hx
    rcases List.mem_map.mp hx with ⟨i, hi, rfl⟩
    have hin : i ≤ n := by
      have := List.mem_range.mp hi
      omega
    apply mul_le_mul_of_nonneg_right _ (le_of_lt hs)
    exact_mod_cast hin
  have hmem_last : (n : ℝ) * s ∈ (List.range (n + 1)).map (fun i : ℕ => (i : ℝ) * s) :=
    List.mem_map.mpr ⟨n, List.mem_range.mpr (by omega), rfl⟩
  rw [hqn] at hquos hrem_lt hrem0
  by_cases hrem : L - (n : ℝ) * s = 0
  · rw [if_pos hrem, if_pos hrem, List.append_nil]
    apply splevAll_eval pts _ (by simp) hnn_base _ hlenpts hLpos
    have hLns : polyLen pts = (n : ℝ) * s := by
      rw [← hLdef]
      linarith
    rw [hLns]
    exact maxList_eq hub_base hmem_last
  · rw [if_neg hrem, if_neg hrem]
    rw [base_getLast s n]
    simp only []
    have happ : (n : ℝ) * s + (L - (n : ℝ) * s) = L := by ring
    rw [happ]
    apply splevAll_eval pts _ (by simp) _ _ hlenpts hLpos
    · intro x hx
      rcases List.mem_append.mp hx with hx | hx
      · exact hnn_base x hx
      · rw [List.mem_singleton] at hx
        subst hx
        linarith
    · apply maxList_eq _ (List.mem_append_right _ (List.mem_singleton.mpr rfl))
      intro x hx
      rcases List.mem_append.mp hx with hx | hx
      · have := hub_base x hx
        linarith
      · rw [List.mem_singleton] at hx
        subst hx
        linarith

theorem distR_eval (x1 y1 z1 x2 y2 z2 d : ℝ) (hd : 0 ≤ d)
    (h : (x1 - x2) ^ 2 + (y1 - y2) ^ 2 + (z1 - z2) ^ 2 = d ^ 2) :
    distR (x1, y1, z1) (x2, y2, z2) = d := by
  unfold distR
  simp only []
  rw [h]
  exact Real.sqrt_sq hd

theorem resampleCore_short (points : List Point) (s : ℝ) (hsne : s ≠ 0)
    (hlen : (dedupFirst points).length ≤ 1) :
    resampleCore points s = .error "TypeError: m > k must hold" := by
  have hL : polyLen (dedupFirst points) = 0 := polyLen_short _ hlen
  simp only [resampleCore, hL, zero_div, Int.floor_zero]
  rw [if_neg hsne]
  norm_num [linspace, splevAll, hlen]

theorem resampleCore_ok_len (points : List Point) (s : ℝ) (hs : 0 < s) {out : List Point}
    (h : resampleCore points s = .ok out) : 2 ≤ (dedupFirst points).length := by
  by_contra hc
  push_neg at hc
  rw [resampleCore_short points s (ne_of_gt hs) (by omega)] at h
  exact Except.noConfusion h

theorem polylineAt_zero : ∀ (p : Point) (rest : List Point), polylineAt (p :: rest) 0 = p := by
  intro p rest
  cases rest with
  | nil => rfl
  | cons q rest' =>
    rw [polylineAt, if_pos (distR_nonneg p q)]
    simp

theorem base_head (s : ℝ) (n : ℕ) :
    (((List.range (n + 1)).map fun i : ℕ => (i : ℝ) * s)).head? = some 0 := by
  rw [List.range_succ_eq_map, List.map_cons]
  simp

/-- C3: for a successful resample (at least two distinct deduplicated points,
positive spacing), with `L` the deduplicated polyline length, `quo = ⌊L / s⌋`
and `rem = L - quo * s`, the output has exactly `quo + 1` points when `rem = 0`
and exactly `quo + 2` points otherwise, produced in order by evaluating the
curve at the sample positions `0, s, 2s, …, quo*s` (evenly spaced over
`[0, quo*s]`), with one final sample appended at `quo*s + rem` when `rem ≠ 0`. -/
theorem c3_output_count (points : List Point) (s : ℝ) (hs : 0 < s)
    (h2 : 2 ≤ (dedupFirst points).length) :
    ∃ out, resampleCore points s = .ok out ∧
      out.length =
        (if polyLen (dedupFirst points) - ⌊polyLen (dedupFirst points) / s⌋ * s = 0
         then (⌊polyLen (dedupFirst points) / s⌋).toNat + 1
         else (⌊polyLen (dedupFirst points) / s⌋).toNat + 2) ∧
      out = (((List.range ((⌊polyLen (dedupFirst points) / s⌋).toNat + 1)).map
              (fun i : ℕ => (i : ℝ) * s)) ++
            (if polyLen (dedupFirst points) - ⌊polyLen (dedupFirst points) / s⌋ * s = 0
             then []
             else [⌊polyLen (dedupFirst points) / s⌋ * s +
               (polyLen (dedupFirst points) - ⌊polyLen (dedupFirst points) / s⌋ * s)])).map
        (polylineAt (dedupFirst points)) := by
  refine ⟨_, resampleCore_ok_eq points s hs h2, ?_, ?_⟩
  · simp only [List.length_map, List.length_append, List.length_range]
    split_ifs <;> simp
  · congr 2
    split_ifs with h
    · rfl
    · congr 1
      ring

theorem c3_output_count_witness :
    (0 : ℝ) < 10 ∧
    2 ≤ (dedupFirst [((0:ℝ), (0:ℝ), (0:ℝ)), (10, 0, 0), (15, 0, 0)]).length ∧
    (∃ out, resampleCore [((0:ℝ), (0:ℝ), (0:ℝ)), (10, 0, 0), (15, 0, 0)] 10 = .ok out ∧
      out.length =
        (if polyLen (dedupFirst [((0:ℝ), (0:ℝ), (0:ℝ)), (10, 0, 0), (15, 0, 0)]) -
            ⌊polyLen (dedupFirst [((0:ℝ), (0:ℝ), (0:ℝ)), (10, 0, 0), (15, 0, 0)]) / 10⌋ * 10 = 0
         then (⌊polyLen (dedupFirst [((0:ℝ), (0:ℝ), (0:ℝ)), (10, 0, 0), (15, 0, 0)]) / 10⌋).toNat + 1
         else (⌊polyLen (dedupFirst [((0:ℝ), (0:ℝ), (0:ℝ)), (10, 0, 0), (15, 0, 0)]) / 10⌋).toNat + 2) ∧
      out = (((List.range ((⌊polyLen (dedupFirst [((0:ℝ), (0:ℝ), (0:ℝ)), (10, 0, 0), (15, 0, 0)]) / 10⌋).toNat + 1)).map
              (fun i : ℕ => (i : ℝ) * 10)) ++
            (if polyLen (dedupFirst [((0:ℝ), (0:ℝ), (0:ℝ)), (10, 0, 0), (15, 0, 0)]) -
                ⌊polyLen (dedupFirst [((0:ℝ), (0:ℝ), (0:ℝ)), (10, 0, 0), (15, 0, 0)]) / 10⌋ * 10 = 0
             then []
             else [⌊polyLen (dedupFirst [((0:ℝ), (0:ℝ), (0:ℝ)), (10, 0, 0), (15, 0, 0)]) / 10⌋ * 10 +
               (polyLen (dedupFirst [((0:ℝ), (0:ℝ), (0:ℝ)), (10, 0, 0), (15, 0, 0)]) -
                ⌊polyLen (dedupFirst [((0:ℝ), (0:ℝ), (0:ℝ)), (10, 0, 0), (15, 0, 0)]) / 10⌋ * 10)])).map
        (polylineAt (dedupFirst [((0:ℝ), (0:ℝ), (0:ℝ)), (10, 0, 0), (15, 0, 0)]))) :=
  ⟨by norm_num,
   by norm_num [dedupFirst, dedupAux, Prod.ext_iff],
   c3_output_count _ 10 (by norm_num) (by norm_num [dedupFirst, dedupAux, Prod.ext_iff])⟩

/-- C5 (claim as stated is false): `resample_path` decides the degenerate no-op
case on the RAW point count (after prepending the start join), not on the
deduplicated count.  A branch of two identical points has deduplicated count
1 < 2, yet it is not returned unchanged: resampling is attempted and the curve
fit raises (`splprep` requires more points than the spline degree). -/
theorem c5_dedup_count_refuted :
    resamplePathPts [((0:ℝ), (0:ℝ), (0:ℝ)), (0, 0, 0)] 1 none =
      .error "TypeError: m > k must hold" ∧
    (dedupFirst [((0:ℝ), (0:ℝ), (0:ℝ)), (0, 0, 0)]).length < 2 := by
  constructor
  · have hshort : (dedupFirst [((0:ℝ), (0:ℝ), (0:ℝ)), (0, 0, 0)]).length ≤ 1 := by
      norm_num [dedupFirst, dedupAux, Prod.ext_iff]
    simp only [resamplePathPts]
    rw [if_neg (by norm_num)]
    rw [resampleCore_short _ 1 (by norm_num) hshort]
    rfl
  · norm_num [dedupFirst, dedupAux, Prod.ext_iff]

/-- C5 (amended): a branch whose RAW point sequence (with the start-join point
prepended when present) has fewer than 2 points is returned unchanged by
`resample_path`, never raising; when the raw count is at least 2 but fewer than
2 distinct points remain after deduplication, resampling is attempted and fails
with the curve-fit error instead. -/
theorem c5_short_raw_unchanged :
    (∀ (pathPts : List Point) (s : ℝ) (sj : Option Point),
      (match sj with | some j => j :: pathPts | none => pathPts).length < 2 →
      resamplePathPts pathPts s sj = .ok none) ∧
    (∀ (pathPts : List Point) (s : ℝ) (sj : Option Point),
      2 ≤ (match sj with | some j => j :: pathPts | none => pathPts).length →
      (dedupFirst (match sj with | some j => j :: pathPts | none => pathPts)).length < 2 →
      s ≠ 0 →
      resamplePathPts pathPts s sj = .error "TypeError: m > k must hold") := by
  constructor
  · intro pathPts s sj h
    simp only [resamplePathPts]
    rw [if_pos h]
  · intro pathPts s sj hraw hdedup hs
    simp only [resamplePathPts]
    rw [if_neg (by omega)]
    rw [resampleCore_short _ s hs (by omega)]
    rfl

theorem c5_short_raw_unchanged_witness :
    resamplePathPts [((0:ℝ), (0:ℝ), (0:ℝ))] 1 none = .ok none ∧
    resamplePathPts [((0:ℝ), (0:ℝ), (0:ℝ)), (0, 0, 0)] 1 none =
      .error "TypeError: m > k must hold" :=
  ⟨c5_short_raw_unchanged.1 [((0:ℝ), (0:ℝ), (0:ℝ))] 1 none (by norm_num),
   c5_short_raw_unchanged.2 [((0:ℝ), (0:ℝ), (0:ℝ)), (0, 0, 0)] 1 none (by norm_num)
     (by norm_num [dedupFirst, dedupAux, Prod.ext_iff]) (by norm_num)⟩

/-- C9 (claim as stated is false): `_resample` itself performs no spacing
validation — calling it with spacing 0 fails with a float-divmod
`ZeroDivisionError`, not with the dedicated invalid-spacing validation error
(the `ValueError` that the orchestrator's `--node-spacing-um` check raises). -/
theorem c9_invalid_spacing_refuted :
    resampleCore [((0:ℝ), (0:ℝ), (0:ℝ)), (1, 0, 0)] 0 =
      .error "ZeroDivisionError: float divmod()" ∧
    ("ZeroDivisionError: float divmod()" : String) ≠
      "ValueError: --node-spacing-um must be > 0" := by
  constructor
  · simp [resampleCore]
  · decide

/-- C9 (amended): every `_resample` call with spacing ≤ 0 fails (with an
arithmetic error — division by zero for spacing 0, sample-construction errors
for negative spacing) and performs no resampling; the dedicated
invalid-spacing validation (`ValueError` for node spacing ≤ 0) is performed by
the orchestrator before any file is processed. -/
theorem c9_nonpositive_spacing :
    (∀ (points : List Point) (s : ℝ), s ≤ 0 → ∃ e, resampleCore points s = .error e) ∧
    (∀ x : ℝ, x ≤ 0 →
      validateNodeSpacing x = .error "ValueError: --node-spacing-um must be > 0") := by
  constructor
  · intro points s hs
    rcases eq_or_lt_of_le hs with rfl | hneg
    · exact ⟨"ZeroDivisionError: float divmod()", by simp [resampleCore]⟩
    · have hsne : s ≠ 0 := ne_of_lt hneg
      by_cases hlen : (dedupFirst points).length ≤ 1
      · exact ⟨_, resampleCore_short points s hsne hlen⟩
      · push_neg at hlen
        set pts := dedupFirst points with hpts
        set L := polyLen pts with hLdef
        have hLpos : 0 < L := polyLen_pos pts (nodup_dedupFirst points) hlen
        have hqneg : ⌊L / s⌋ < 0 := by
          apply Int.floor_lt.mpr
          push_cast
          exact div_neg_of_pos_of_neg hLpos hneg
        set q : ℤ := ⌊L / s⌋ with hqdef
        rcases lt_or_eq_of_le (show q + 1 ≤ 0 by omega) with hq1 | hq1
        · refine ⟨"ValueError: Number of samples must be non-negative", ?_⟩
          simp only [resampleCore]
          rw [← hpts, ← hLdef, ← hqdef, if_neg hsne, if_pos hq1]
        · have htn : (q + 1).toNat = 0 := by omega
          have hbase : linspace 0 (s * (q : ℝ)) (q + 1).toNat = [] := by
            rw [htn, linspace, if_neg (by omega)]
            simp
          by_cases hrem : L - (q : ℝ) * s = 0
          · refine ⟨"ValueError: max() arg is an empty sequence", ?_⟩
            simp only [resampleCore]
            rw [← hpts, ← hLdef, ← hqdef, if_neg hsne, if_neg (by omega), hbase,
              if_pos hrem, splevAll, if_pos rfl]
          · refine ⟨"IndexError: index -1 is out of bounds for axis 0 with size 0", ?_⟩
            simp only [resampleCore]
            rw [← hpts, ← hLdef, ← hqdef, if_neg hsne, if_neg (by omega), hbase,
              if_neg hrem]
            rfl
  · intro x hx
    rw [validateNodeSpacing, if_pos hx]

theorem c9_nonpositive_spacing_witness :
    (∃ e, resampleCore [((0:ℝ), (0:ℝ), (0:ℝ)), (1, 0, 0)] (-1) = .error e) ∧
    validateNodeSpacing 0 = .error "ValueError: --node-spacing-um must be > 0" :=
  ⟨c9_nonpositive_spacing.1 [((0:ℝ), (0:ℝ), (0:ℝ)), (1, 0, 0)] (-1) (by norm_num),
   c9_nonpositive_spacing.2 0 (by norm_num)⟩

theorem polyLen_cons₂ (p q : Point) (rest : List Point) :
    polyLen (p :: q :: rest) = distR p q + polyLen (q :: rest) := rfl

theorem polyLen_one (p : Point) : polyLen [p] = 0 := rfl

theorem floor_mul_le (L s : ℝ) (hs : 0 < s) : (⌊L / s⌋ : ℝ) * s ≤ L := by
  have hfl : ((⌊L / s⌋ : ℤ) : ℝ) ≤ L / s := Int.floor_le (L / s)
  calc (⌊L / s⌋ : ℝ) * s ≤ (L / s) * s := mul_le_mul_of_nonneg_right hfl (le_of_lt hs)
    _ = L := div_mul_cancel₀ L (ne_of_gt hs)

theorem sub_floor_mul_lt (L s : ℝ) (hs : 0 < s) : L - (⌊L / s⌋ : ℝ) * s < s := by
  have hfl : L / s < ((⌊L / s⌋ : ℤ) : ℝ) + 1 := Int.lt_floor_add_one (L / s)
  have h' : L < ((⌊L / s⌋ : ℝ) + 1) * s := by
    calc L = (L / s) * s := (div_mul_cancel₀ L (ne_of_gt hs)).symm
      _ < ((⌊L / s⌋ : ℝ) + 1) * s := mul_lt_mul_of_pos_right hfl hs
  linarith

/-- C6: deduplication removes duplicate position values wherever they occur in
the sequence (not only adjacent duplicates): the result has no duplicates, has
exactly the input's values, is a subsequence of the input (relative order
preserved), and keeps each surviving value at its earliest position (the head
survives in place and all of its later duplicates are dropped, recursively).
When a start join is present the join point is prepended before dedup, so a
successfully resampled branch begins exactly at its parent attachment point. -/
theorem c6_dedup_and_prepend :
    (∀ ps : List Point, (dedupFirst ps).Nodup) ∧
    (∀ (ps : List Point) (x : Point), x ∈ dedupFirst ps ↔ x ∈ ps) ∧
    (∀ ps : List Point, List.Sublist (dedupFirst ps) ps) ∧
    (∀ (p : Point) (rest : List Point),
      dedupFirst (p :: rest) = p :: dedupFirst (rest.filter (neP p))) ∧
    (∀ (pathPts : List Point) (s : ℝ) (j : Point) (out : List Point),
      0 < s → resamplePathPts pathPts s (some j) = .ok (some out) →
      out.head? = some j) := by
  refine ⟨nodup_dedupFirst, mem_dedupFirst, dedupFirst_sublist, ?_, ?_⟩
  · intro p rest
    rw [dedupFirst_cons]
    rfl
  · intro pathPts s j out hs h
    simp only [resamplePathPts] at h
    by_cases hlen : (j :: pathPts).length < 2
    · rw [if_pos hlen] at h
      exact absurd h (by simp)
    · rw [if_neg hlen] at h
      rcases hrc : resampleCore (j :: pathPts) s with e | out'
      · rw [hrc] at h
        exact absurd h (by simp [Except.map])
      · rw [hrc] at h
        have hout : out' = out := by
          simpa [Except.map] using h
        subst hout
        have h2 := resampleCore_ok_len _ s hs hrc
        have hchar := resampleCore_ok_eq (j :: pathPts) s hs h2
        rw [hrc] at hchar
        have hout2 := Except.ok.inj hchar
        rw [hout2, List.head?_map, List.head?_append, base_head]
        have hded := dedupFirst_cons j pathPts
        rw [hded]
        simp [polylineAt_zero]

theorem c6_dedup_and_prepend_witness :
    (0 : ℝ) < 5 ∧
    resamplePathPts [((10:ℝ), (0:ℝ), (0:ℝ))] 5 (some ((0:ℝ), (0:ℝ), (0:ℝ))) =
      .ok (some [((0:ℝ), (0:ℝ), (0:ℝ)), ((5:ℝ), (0:ℝ), (0:ℝ)), ((10:ℝ), (0:ℝ), (0:ℝ))]) ∧
    ([((0:ℝ), (0:ℝ), (0:ℝ)), ((5:ℝ), (0:ℝ), (0:ℝ)), ((10:ℝ), (0:ℝ), (0:ℝ))] :
        List Point).head? = some ((0 : ℝ), (0 : ℝ), (0 : ℝ)) := by
  have hd1 : distR ((0:ℝ), (0:ℝ), (0:ℝ)) ((10:ℝ), (0:ℝ), (0:ℝ)) = 10 := by
    apply distR_eval <;> norm_num
  have hded : dedupFirst [((0:ℝ), (0:ℝ), (0:ℝ)), ((10:ℝ), (0:ℝ), (0:ℝ))] =
      [((0:ℝ), (0:ℝ), (0:ℝ)), ((10:ℝ), (0:ℝ), (0:ℝ))] := by
    norm_num [dedupFirst, dedupAux, Prod.ext_iff]
  have hL : polyLen (dedupFirst [((0:ℝ), (0:ℝ), (0:ℝ)), ((10:ℝ), (0:ℝ), (0:ℝ))]) = 10 := by
    rw [hded, polyLen_cons₂, polyLen_one, hd1]
    norm_num
  have h2 : 2 ≤ (dedupFirst [((0:ℝ), (0:ℝ), (0:ℝ)), ((10:ℝ), (0:ℝ), (0:ℝ))]).length := by
    rw [hded]
    norm_num
  have hchar := resampleCore_ok_eq [((0:ℝ), (0:ℝ), (0:ℝ)), ((10:ℝ), (0:ℝ), (0:ℝ))] 5
    (by norm_num) h2
  rw [hL, hded] at hchar
  have hq : ⌊(10:ℝ) / 5⌋ = 2 := by norm_num [Int.floor_eq_iff]
  rw [hq] at hchar
  rw [if_pos (by norm_num)] at hchar
  rw [List.append_nil] at hchar
  rw [show (2:ℤ).toNat + 1 = 3 from rfl] at hchar
  rw [show List.range 3 = [0, 1, 2] from rfl] at hchar
  simp only [List.map_cons, List.map_nil] at hchar
  rw [show ((0:ℕ):ℝ) * 5 = 0 by norm_num, show ((1:ℕ):ℝ) * 5 = 5 by norm_num,
    show ((2:ℕ):ℝ) * 5 = 10 by norm_num] at hchar
  have e0 : polylineAt [((0:ℝ), (0:ℝ), (0:ℝ)), ((10:ℝ), (0:ℝ), (0:ℝ))] 0 =
      ((0:ℝ), (0:ℝ), (0:ℝ)) := polylineAt_zero _ _
  have e5 : polylineAt [((0:ℝ), (0:ℝ), (0:ℝ)), ((10:ℝ), (0:ℝ), (0:ℝ))] 5 =
      ((5:ℝ), (0:ℝ), (0:ℝ)) := by
    rw [polylineAt, hd1, if_pos (by norm_num)]
    norm_num
  have e10 : polylineAt [((0:ℝ), (0:ℝ), (0:ℝ)), ((10:ℝ), (0:ℝ), (0:ℝ))] 10 =
      ((10:ℝ), (0:ℝ), (0:ℝ)) := by
    rw [polylineAt, hd1, if_pos (by norm_num)]
    norm_num
  rw [e0, e5, e10] at hchar
  have heq : resamplePathPts [((10:ℝ), (0:ℝ), (0:ℝ))] 5 (some ((0:ℝ), (0:ℝ), (0:ℝ))) =
      .ok (some [((0:ℝ), (0:ℝ), (0:ℝ)), ((5:ℝ), (0:ℝ), (0:ℝ)), ((10:ℝ), (0:ℝ), (0:ℝ))]) := by
    simp only [resamplePathPts]
    rw [if_neg (by norm_num), hchar]
    rfl
  refine ⟨by norm_num, heq, ?_⟩
  exact c6_dedup_and_prepend.2.2.2.2 [((10:ℝ), (0:ℝ), (0:ℝ))] 5 ((0:ℝ), (0:ℝ), (0:ℝ)) _
    (by norm_num) heq

/-- C2 (claim as stated is false): on a bent polyline the Euclidean distance
between consecutive output points is NOT the configured spacing.  For the
deduplicated points `(0,0,0), (3,0,0), (3,4,0)` (lengths 3 and 4, total 7) and
spacing 5, the output is `(0,0,0), (3,2,0), (3,4,0)`; the first two output
points — not the last pair — are `√13 ≠ 5` apart. -/
theorem c2_euclidean_refuted :
    resampleCore [((0:ℝ), (0:ℝ), (0:ℝ)), ((3:ℝ), (0:ℝ), (0:ℝ)), ((3:ℝ), (4:ℝ), (0:ℝ))] 5 =
      .ok [((0:ℝ), (0:ℝ), (0:ℝ)), ((3:ℝ), (2:ℝ), (0:ℝ)), ((3:ℝ), (4:ℝ), (0:ℝ))] ∧
    distR ((0:ℝ), (0:ℝ), (0:ℝ)) ((3:ℝ), (2:ℝ), (0:ℝ)) ≠ 5 := by
  have hd1 : distR ((0:ℝ), (0:ℝ), (0:ℝ)) ((3:ℝ), (0:ℝ), (0:ℝ)) = 3 := by
    apply distR_eval <;> norm_num
  have hd2 : distR ((3:ℝ), (0:ℝ), (0:ℝ)) ((3:ℝ), (4:ℝ), (0:ℝ)) = 4 := by
    apply distR_eval <;> norm_num
  have hded : dedupFirst
      [((0:ℝ), (0:ℝ), (0:ℝ)), ((3:ℝ), (0:ℝ), (0:ℝ)), ((3:ℝ), (4:ℝ), (0:ℝ))] =
      [((0:ℝ), (0:ℝ), (0:ℝ)), ((3:ℝ), (0:ℝ), (0:ℝ)), ((3:ℝ), (4:ℝ), (0:ℝ))] := by
    norm_num [dedupFirst, dedupAux, Prod.ext_iff]
  have h2 : 2 ≤ (dedupFirst
      [((0:ℝ), (0:ℝ), (0:ℝ)), ((3:ℝ), (0:ℝ), (0:ℝ)), ((3:ℝ), (4:ℝ), (0:ℝ))]).length := by
    rw [hded]
    norm_num
  have hL : polyLen (dedupFirst
      [((0:ℝ), (0:ℝ), (0:ℝ)), ((3:ℝ), (0:ℝ), (0:ℝ)), ((3:ℝ), (4:ℝ), (0:ℝ))]) = 7 := by
    rw [hded, polyLen_cons₂, polyLen_cons₂, polyLen_one, hd1, hd2]
    norm_num
  have hchar := resampleCore_ok_eq
    [((0:ℝ), (0:ℝ), (0:ℝ)), ((3:ℝ), (0:ℝ), (0:ℝ)), ((3:ℝ), (4:ℝ), (0:ℝ))] 5 (by norm_num) h2
  rw [hL, hded] at hchar
  have hq : ⌊(7:ℝ) / 5⌋ = 1 := by norm_num [Int.floor_eq_iff]
  rw [hq] at hchar
  rw [if_neg (by norm_num)] at hchar
  rw [show (1:ℤ).toNat + 1 = 2 from rfl] at hchar
  rw [show List.range 2 = [0, 1] from rfl] at hchar
  simp only [List.map_cons, List.map_nil, List.map_append, List.cons_append,
    List.nil_append] at hchar
  rw [show ((0:ℕ):ℝ) * 5 = 0 by norm_num, show ((1:ℕ):ℝ) * 5 = 5 by norm_num] at hchar
  have e0 : polylineAt
      [((0:ℝ), (0:ℝ), (0:ℝ)), ((3:ℝ), (0:ℝ), (0:ℝ)), ((3:ℝ), (4:ℝ), (0:ℝ))] 0 =
      ((0:ℝ), (0:ℝ), (0:ℝ)) := polylineAt_zero _ _
  have e5 : polylineAt
      [((0:ℝ), (0:ℝ), (0:ℝ)), ((3:ℝ), (0:ℝ), (0:ℝ)), ((3:ℝ), (4:ℝ), (0:ℝ))] 5 =
      ((3:ℝ), (2:ℝ), (0:ℝ)) := by
    rw [polylineAt, hd1, if_neg (by norm_num)]
    rw [show (5:ℝ) - 3 = 2 by norm_num]
    rw [polylineAt, hd2, if_pos (by norm_num)]
    norm_num
  have e7 : polylineAt
      [((0:ℝ), (0:ℝ), (0:ℝ)), ((3:ℝ), (0:ℝ), (0:ℝ)), ((3:ℝ), (4:ℝ), (0:ℝ))] 7 =
      ((3:ℝ), (4:ℝ), (0:ℝ)) := by
    rw [polylineAt, hd1, if_neg (by norm_num)]
    rw [show (7:ℝ) - 3 = 4 by norm_num]
    rw [polylineAt, hd2, if_pos (by norm_num)]
    norm_num
  rw [e0, e5, e7] at hchar
  refine ⟨hchar, ?_⟩
  have h13 : distR ((0:ℝ), (0:ℝ), (0:ℝ)) ((3:ℝ), (2:ℝ), (0:ℝ)) = Real.sqrt 13 := by
    unfold distR
    norm_num
  rw [h13]
  intro hc
  have hsq : Real.sqrt 13 ^ 2 = 13 := Real.sq_sqrt (by norm_num)
  rw [hc] at hsq
  norm_num at hsq

/-- C2 (amended): for a successful resample (at least two distinct deduplicated
points, positive spacing), the consecutive output points lie at arc-length
positions along the deduplicated polyline that increase by exactly the
configured spacing, except the final increment, which is the division remainder
`rem` with `0 ≤ rem ≤ spacing`: the output is the polyline evaluated at sample
positions whose consecutive differences are `spacing, …, spacing` followed by
`rem` when `rem ≠ 0`.  (The Euclidean distance between consecutive output points
equals this arc-length increment only where the polyline is straight between
them; on bent polylines it is shorter, see the counterexample.) -/
theorem c2_arc_spacing (points : List Point) (s : ℝ) (hs : 0 < s)
    (h2 : 2 ≤ (dedupFirst points).length) :
    ∃ samples,
      resampleCore points s = .ok (samples.map (polylineAt (dedupFirst points))) ∧
      diffs samples =
        List.replicate (⌊polyLen (dedupFirst points) / s⌋).toNat s ++
          (if polyLen (dedupFirst points) - ⌊polyLen (dedupFirst points) / s⌋ * s = 0 then []
           else [polyLen (dedupFirst points) - ⌊polyLen (dedupFirst points) / s⌋ * s]) ∧
      0 ≤ polyLen (dedupFirst points) - ⌊polyLen (dedupFirst points) / s⌋ * s ∧
      polyLen (dedupFirst points) - ⌊polyLen (dedupFirst points) / s⌋ * s ≤ s := by
  set pts := dedupFirst points with hpts
  set L := polyLen pts with hLdef
  have hL0 : 0 ≤ L := polyLen_nonneg pts
  have hq0 : (0 : ℤ) ≤ ⌊L / s⌋ := Int.floor_nonneg.mpr (by positivity)
  set q : ℤ := ⌊L / s⌋ with hqdef
  set n : ℕ := q.toNat with hndef
  have hqn : (q : ℝ) = (n : ℝ) := by exact_mod_cast (Int.toNat_of_nonneg hq0).symm
  have hgd : ∀ i : ℕ, (fun i : ℕ => (i : ℝ) * s) (i + 1) - (fun i : ℕ => (i : ℝ) * s) i = s := by
    intro i
    push_cast
    ring
  refine ⟨_, resampleCore_ok_eq points s hs h2, ?_, ?_, ?_⟩
  · by_cases hrem : L - (q : ℝ) * s = 0
    · rw [if_pos hrem, if_pos hrem, List.append_nil, List.append_nil]
      exact diffs_map_range s n _ hgd
    · rw [if_neg hrem, if_neg hrem]
      have hbne : ((List.range (n + 1)).map fun i : ℕ => (i : ℝ) * s) ≠ [] := by simp
      rw [diffs_append_last _ _ hbne]
      congr 1
      · exact diffs_map_range s n _ hgd
      · have hgl : ((List.range (n + 1)).map fun i : ℕ => (i : ℝ) * s).getLast hbne =
            (n : ℝ) * s := by
          have h1 := base_getLast s n
          rw [List.getLast?_eq_getLast _ hbne] at h1
          exact Option.some.inj h1
        rw [hgl, hqn]
  · have := floor_mul_le L s hs
    rw [← hqdef] at this
    linarith
  · have := sub_floor_mul_lt L s hs
    rw [← hqdef] at this
    linarith

theorem c2_arc_spacing_witness :
    (0 : ℝ) < 10 ∧
    2 ≤ (dedupFirst [((0:ℝ), (0:ℝ), (0:ℝ)), ((10:ℝ), (0:ℝ), (0:ℝ)),
      ((15:ℝ), (0:ℝ), (0:ℝ))]).length ∧
    (∃ samples,
      resampleCore [((0:ℝ), (0:ℝ), (0:ℝ)), ((10:ℝ), (0:ℝ), (0:ℝ)),
          ((15:ℝ), (0:ℝ), (0:ℝ))] 10 =
        .ok (samples.map (polylineAt (dedupFirst [((0:ℝ), (0:ℝ), (0:ℝ)),
          ((10:ℝ), (0:ℝ), (0:ℝ)), ((15:ℝ), (0:ℝ), (0:ℝ))]))) ∧
      diffs samples =
        List.replicate (⌊polyLen (dedupFirst [((0:ℝ), (0:ℝ), (0:ℝ)),
            ((10:ℝ), (0:ℝ), (0:ℝ)), ((15:ℝ), (0:ℝ), (0:ℝ))]) / 10⌋).toNat 10 ++
          (if polyLen (dedupFirst [((0:ℝ), (0:ℝ), (0:ℝ)), ((10:ℝ), (0:ℝ), (0:ℝ)),
               ((15:ℝ), (0:ℝ), (0:ℝ))]) -
              ⌊polyLen (dedupFirst [((0:ℝ), (0:ℝ), (0:ℝ)), ((10:ℝ), (0:ℝ), (0:ℝ)),
                ((15:ℝ), (0:ℝ), (0:ℝ))]) / 10⌋ * 10 = 0 then []
           else [polyLen (dedupFirst [((0:ℝ), (0:ℝ), (0:ℝ)), ((10:ℝ), (0:ℝ), (0:ℝ)),
               ((15:ℝ), (0:ℝ), (0:ℝ))]) -
             ⌊polyLen (dedupFirst [((0:ℝ), (0:ℝ), (0:ℝ)), ((10:ℝ), (0:ℝ), (0:ℝ)),
               ((15:ℝ), (0:ℝ), (0:ℝ))]) / 10⌋ * 10]) ∧
      0 ≤ polyLen (dedupFirst [((0:ℝ), (0:ℝ), (0:ℝ)), ((10:ℝ), (0:ℝ), (0:ℝ)),
            ((15:ℝ), (0:ℝ), (0:ℝ))]) -
          ⌊polyLen (dedupFirst [((0:ℝ), (0:ℝ), (0:ℝ)), ((10:ℝ), (0:ℝ), (0:ℝ)),
            ((15:ℝ), (0:ℝ), (0:ℝ))]) / 10⌋ * 10 ∧
      polyLen (dedupFirst [((0:ℝ), (0:ℝ), (0:ℝ)), ((10:ℝ), (0:ℝ), (0:ℝ)),
          ((15:ℝ), (0:ℝ), (0:ℝ))]) -
        ⌊polyLen (dedupFirst [((0:ℝ), (0:ℝ), (0:ℝ)), ((10:ℝ), (0:ℝ), (0:ℝ)),
          ((15:ℝ), (0:ℝ), (0:ℝ))]) / 10⌋ * 10 ≤ 10) :=
  ⟨by norm_num,
   by norm_num [dedupFirst, dedupAux, Prod.ext_iff],
   c2_arc_spacing _ 10 (by norm_num) (by norm_num [dedupFirst, dedupAux, Prod.ext_iff])⟩

/-! ### Parent-chain lemmas -/

theorem iterParent_add (g : NGraph) :
    ∀ (i j : ℕ) (m : Nat),
      iterParent g (i + j) m = (iterParent g i m).bind (iterParent g j) := by
  intro i
  induction i with
  | zero => intro j m; simp [iterParent]
  | succ i ih =>
    intro j m
    have hr : i + 1 + j = (i + j) + 1 := by omega
    rw [hr, iterParent, iterParent]
    cases hp : g.parentOf m with
    | none => simp
    | some p => simp [ih j p]

theorem iterParent_one (g : NGraph) (m : Nat) : iterParent g 1 m = g.parentOf m := by
  rw [iterParent]
  cases g.parentOf m <;> simp [iterParent]

theorem iterParent_succ' (g : NGraph) (k : ℕ) (m : Nat) :
    iterParent g (k + 1) m = (iterParent g k m).bind g.parentOf := by
  rw [iterParent_add g k 1 m]
  cases iterParent g k m with
  | none => simp
  | some x => simp [iterParent_one]

theorem iterParent_stop (g : NGraph) {r : Nat} (hr : g.parentOf r = none) :
    ∀ (k : ℕ) (x : Nat), iterParent g k r = some x → k = 0 ∧ x = r := by
  intro k x h
  cases k with
  | zero =>
    simp only [iterParent, Option.some.injEq] at h
    exact ⟨rfl, h.symm⟩
  | succ k =>
    rw [iterParent, hr] at h
    simp at h

theorem iterParent_between (g : NGraph) {i j : ℕ} {m a b : Nat}
    (ha : iterParent g i m = some a) (hb : iterParent g j m = some b) (hij : i ≤ j) :
    iterParent g (j - i) a = some b := by
  have hr : i + (j - i) = j := by omega
  rw [← hr, iterParent_add, ha] at hb
  simpa using hb

theorem iterParent_mem (g : NGraph)
    (hcl : ∀ m ∈ g.nodes, ∀ p, g.parentOf m = some p → p ∈ g.nodes) :
    ∀ (k : ℕ) (m x : Nat), m ∈ g.nodes → iterParent g k m = some x → x ∈ g.nodes := by
  intro k
  induction k with
  | zero =>
    intro m x hm h
    simp only [iterParent, Option.some.injEq] at h
    rwa [← h]
  | succ k ih =>
    intro m x hm h
    rw [iterParent] at h
    cases hp : g.parentOf m with
    | none => rw [hp] at h; simp at h
    | some p =>
      rw [hp] at h
      simp only [Option.some_bind] at h
      exact ih p x (hcl m hm p hp) h

theorem chainRoot_spec (g : NGraph) :
    ∀ (f : ℕ) (m r : Nat), chainRoot g f m = some r →
      ∃ k ≤ f, iterParent g k m = some r ∧ g.parentOf r = none := by
  intro f
  induction f with
  | zero =>
    intro m r h
    rw [chainRoot] at h
    by_cases hp : (g.parentOf m).isNone
    · rw [if_pos hp] at h
      obtain rfl : m = r := by simpa using h
      exact ⟨0, le_refl 0, by simp [iterParent], Option.isNone_iff_eq_none.mp hp⟩
    · rw [if_neg hp] at h
      exact absurd h (by simp)
  | succ f ih =>
    intro m r h
    rw [chainRoot] at h
    cases hp : g.parentOf m with
    | none =>
      rw [hp] at h
      obtain rfl : m = r := by simpa using h
      exact ⟨0, by omega, by simp [iterParent], hp⟩
    | some p =>
      rw [hp] at h
      obtain ⟨k, hk, hit, hr⟩ := ih p r h
      refine ⟨k + 1, by omega, ?_, hr⟩
      rw [iterParent, hp]
      simpa using hit

theorem inSubtreeB_iff (g : NGraph) (c m : Nat) :
    inSubtreeB g c m = true ↔ ∃ k ≤ g.nodes.length, iterParent g k m = some c := by
  simp [inSubtreeB, List.any_eq_true, List.mem_range, Nat.lt_succ_iff]

theorem inSubtreeB_self (g : NGraph) (c : Nat) : inSubtreeB g c c = true :=
  (inSubtreeB_iff g c c).mpr ⟨0, by omega, by simp [iterParent]⟩

theorem subtree_disjoint_aux (g : NGraph) {soma c c' m : Nat} {k k' : ℕ}
    (hsoma : g.parentOf soma = none)
    (hc : g.parentOf c = some soma) (hc' : g.parentOf c' = some soma)
    (hne : c ≠ c') (hkc : iterParent g k m = some c) (hkc' : iterParent g k' m = some c')
    (hle : k ≤ k') : False := by
  have hbet := iterParent_between g hkc hkc' hle
  rcases hdd : k' - k with _ | d'
  · rw [hdd] at hbet
    simp only [iterParent, Option.some.injEq] at hbet
    exact hne hbet
  · rw [hdd] at hbet
    rw [iterParent, hc] at hbet
    simp only [Option.some_bind] at hbet
    rcases d' with _ | d''
    · simp only [iterParent, Option.some.injEq] at hbet
      rw [← hbet] at hc'
      rw [hsoma] at hc'
      exact Option.noConfusion hc'
    · rw [iterParent, hsoma] at hbet
      simp at hbet

theorem subtree_disjoint (g : NGraph) {soma c c' m : Nat}
    (hsoma : g.parentOf soma = none)
    (hc : g.parentOf c = some soma) (hc' : g.parentOf c' = some soma)
    (hne : c ≠ c') (h1 : inSubtreeB g c m = true) (h2 : inSubtreeB g c' m = true) :
    False := by
  obtain ⟨k, _, hkc⟩ := (inSubtreeB_iff g c m).mp h1
  obtain ⟨k', _, hkc'⟩ := (inSubtreeB_iff g c' m).mp h2
  rcases le_total k k' with hle | hle
  · exact subtree_disjoint_aux g hsoma hc hc' hne hkc hkc' hle
  · exact subtree_disjoint_aux g hsoma hc' hc hne.symm hkc' hkc hle

theorem successors_parent (g : NGraph) {x c : Nat} (h : c ∈ successors g x) :
    g.parentOf c = some x ∧ c ∈ g.nodes := by
  unfold successors at h
  rw [List.mem_filter] at h
  exact ⟨by simpa using h.2, h.1⟩

theorem soma_root (g : NGraph) {soma : Nat} {rest' : List Nat}
    (hroots : rootsList g = soma :: rest') :
    g.parentOf soma = none ∧ soma ∈ g.nodes := by
  have h : soma ∈ rootsList g := by
    rw [hroots]
    exact List.mem_cons_self _ _
  unfold rootsList at h
  rw [List.mem_filter] at h
  exact ⟨Option.isNone_iff_eq_none.mp (by simpa using h.2), h.1⟩

theorem soma_not_in_child_subtree (g : NGraph) {soma c : Nat}
    (hsoma : g.parentOf soma = none) (hc : g.parentOf c = some soma) :
    inSubtreeB g c soma = false := by
  by_contra h
  rw [Bool.not_eq_false] at h
  obtain ⟨k, _, hit⟩ := (inSubtreeB_iff g c soma).mp h
  obtain ⟨-, rfl⟩ := iterParent_stop g hsoma k c hit
  rw [hsoma] at hc
  exact Option.noConfusion hc

theorem reach_child (g : NGraph) {soma m : Nat}
    (hcl : ∀ m ∈ g.nodes, ∀ p, g.parentOf m = some p → p ∈ g.nodes)
    (hm : m ∈ g.nodes) {k : ℕ} (hk : k ≤ g.nodes.length)
    (hit : iterParent g k m = some soma) (hms : m ≠ soma) :
    ∃ c ∈ successors g soma, inSubtreeB g c m = true := by
  cases k with
  | zero =>
    simp only [iterParent, Option.some.injEq] at hit
    exact absurd hit hms
  | succ k =>
    rw [iterParent_succ'] at hit
    rcases hc : iterParent g k m with _ | c
    · rw [hc] at hit
      simp at hit
    · rw [hc] at hit
      simp only [Option.some_bind] at hit
      refine ⟨c, ?_, ?_⟩
      · unfold successors
        rw [List.mem_filter]
        exact ⟨iterParent_mem g hcl k m c hm hc, by simp [hit]⟩
      · exact (inSubtreeB_iff g c m).mpr ⟨k, by omega, hc⟩

theorem root_unique_reach (g : NGraph) {soma m : Nat} (hwf : WF g)
    (hroots : rootsList g = [soma]) (hm : m ∈ g.nodes) :
    ∃ k ≤ g.nodes.length, iterParent g k m = some soma := by
  obtain ⟨hnd, hcl, hterm⟩ := hwf
  have h := hterm m hm
  rcases hcr : chainRoot g g.nodes.length m with _ | r
  · rw [hcr] at h
    simp at h
  · obtain ⟨k, hk, hit, hr⟩ := chainRoot_spec g _ m r hcr
    have hrn : r ∈ g.nodes := iterParent_mem g hcl k m r hm hit
    have hmem : r ∈ rootsList g := by
      unfold rootsList
      rw [List.mem_filter]
      exact ⟨hrn, by simp [hr]⟩
    rw [hroots] at hmem
    obtain rfl : r = soma := by simpa using hmem
    exact ⟨k, hk, hit⟩

/-! ### Subtree-marking and axon-selection lemmas -/

theorem mark_fold_skip (g : NGraph) (f : Nat → Nat) :
    ∀ (children : List Nat) (l : Nat → Nat) (m : Nat),
      (∀ c ∈ children, inSubtreeB g c m = false) →
      children.foldl (fun ls c => markSubtree g ls c (f c)) l m = l m := by
  intro children
  induction children with
  | nil => intro l m _; rfl
  | cons d rest ih =>
    intro l m h
    rw [List.foldl_cons]
    rw [ih _ m (fun c hc => h c (List.mem_cons_of_mem _ hc))]
    simp [markSubtree, h d (List.mem_cons_self _ _)]

theorem mark_fold_write (g : NGraph) (f : Nat → Nat) :
    ∀ (children : List Nat) (l : Nat → Nat) (m c : Nat),
      c ∈ children → inSubtreeB g c m = true →
      (∀ c' ∈ children, inSubtreeB g c' m = true → c' = c) →
      children.foldl (fun ls d => markSubtree g ls d (f d)) l m = f c := by
  intro children
  induction children with
  | nil => intro l m c hc _ _; exact absurd hc (List.not_mem_nil c)
  | cons d rest ih =>
    intro l m c hc hcm huniq
    rw [List.foldl_cons]
    by_cases hcr : c ∈ rest
    · exact ih _ m c hcr hcm (fun c' h1 h2 => huniq c' (List.mem_cons_of_mem _ h1) h2)
    · have hdc : d = c := by
        rcases List.mem_cons.mp hc with h | h
        · exact h.symm
        · exact absurd h hcr
      subst hdc
      rw [mark_fold_skip g f rest _ m ?_]
      · simp [markSubtree, hcm]
      · intro c' hc'
        by_contra hb
        rw [Bool.not_eq_false] at hb
        have h := huniq c' (List.mem_cons_of_mem _ hc') hb
        rw [h] at hc'
        exact hcr hc'

theorem sel_stay (g : NGraph) :
    ∀ (l : List Nat) (o : Option Nat) (b : Nat),
      (∀ c ∈ l, depthOf g c ≤ b) →
      l.foldl (fun acc c => if depthOf g c > acc.2 then (some c, depthOf g c) else acc)
        (o, b) = (o, b) := by
  intro l
  induction l with
  | nil => intro o b _; rfl
  | cons d rest ih =>
    intro o b h
    rw [List.foldl_cons]
    rw [if_neg (by simpa using h d (List.mem_cons_self _ _))]
    exact ih o b (fun c hc => h c (List.mem_cons_of_mem _ hc))

theorem sel_first (g : NGraph) :
    ∀ (l : List Nat) (o : Option Nat) (b : Nat),
      (∃ c ∈ l, b < depthOf g c) →
      ∃ pre a post, l = pre ++ a :: post ∧ b < depthOf g a ∧
        (∀ x ∈ pre, depthOf g x < depthOf g a) ∧
        (∀ x ∈ post, depthOf g x ≤ depthOf g a) ∧
        l.foldl (fun acc c => if depthOf g c > acc.2 then (some c, depthOf g c) else acc)
          (o, b) = (some a, depthOf g a) := by
  intro l
  induction l with
  | nil =>
    intro o b h
    obtain ⟨c, hc, _⟩ := h
    exact absurd hc (List.not_mem_nil c)
  | cons d rest ih =>
    intro o b h
    by_cases hd : b < depthOf g d
    · rw [List.foldl_cons, if_pos (by simpa using hd)]
      by_cases hrest : ∃ c ∈ rest, depthOf g d < depthOf g c
      · obtain ⟨pre, a, post, heq, hba, hpre, hpost, hfold⟩ :=
          ih (some d) (depthOf g d) hrest
        refine ⟨d :: pre, a, post, by rw [heq, List.cons_append], lt_trans hd hba, ?_, hpost, hfold⟩
        intro x hx
        rcases List.mem_cons.mp hx with rfl | hx
        · exact hba
        · exact hpre x hx
      · push_neg at hrest
        exact ⟨[], d, rest, rfl, hd, by simp, hrest, sel_stay g rest _ _ hrest⟩
    · rw [List.foldl_cons, if_neg (by simpa using hd)]
      push_neg at hd
      obtain ⟨c, hc, hbc⟩ := h
      have hcr : c ∈ rest := by
        rcases List.mem_cons.mp hc with rfl | hx
        · omega
        · exact hx
      obtain ⟨pre, a, post, heq, hba, hpre, hpost, hfold⟩ := ih o b ⟨c, hcr, hbc⟩
      refine ⟨d :: pre, a, post, by rw [heq, List.cons_append], hba, ?_, hpost, hfold⟩
      intro x hx
      rcases List.mem_cons.mp hx with rfl | hx
      · omega
      · exact hpre x hx

theorem depthOf_pos (g : NGraph) (c : Nat) : 1 ≤ depthOf g c := by
  unfold depthOf
  omega

/-- C1: for every graph with exactly one parentless root that has at least one
child, the structure-type assigner selects as the axon branch the first soma
child, in the children's iteration order, whose subtree depth attains the
maximum (strict `>`, so later children with equal depth never override it),
labels every node of that child's subtree AXON, and labels every node of every
other child's subtree BASAL_DENDRITE. -/
theorem c1_axon_selection (g : NGraph) (init : Nat → Nat) (soma : Nat)
    (hroots : rootsList g = [soma]) (hchildren : successors g soma ≠ []) :
    ∃ axon labels pre post,
      fixStructureAssignment g init = .ok labels ∧
      successors g soma = pre ++ axon :: post ∧
      (∀ c ∈ pre, depthOf g c < depthOf g axon) ∧
      (∀ c ∈ post, depthOf g c ≤ depthOf g axon) ∧
      (∀ m, inSubtreeB g axon m = true → labels m = axonType) ∧
      (∀ c ∈ successors g soma, c ≠ axon →
        ∀ m, inSubtreeB g c m = true → labels m = basalDendriteType) := by
  obtain ⟨hsoma, _⟩ := soma_root g hroots
  obtain ⟨c0, hc0⟩ := List.exists_mem_of_ne_nil _ hchildren
  have hsel := sel_first g (successors g soma) none 0
    ⟨c0, hc0, lt_of_lt_of_le (by omega) (depthOf_pos g c0)⟩
  obtain ⟨pre, axon, post, heq, _, hpre, hpost, hfold⟩ := hsel
  have haxmem : axon ∈ successors g soma := by
    rw [heq]
    exact List.mem_append_right _ (List.mem_cons_self _ _)
  refine ⟨axon,
    (successors g soma).foldl
      (fun ls c => markSubtree g ls c (if c = axon then axonType else basalDendriteType))
      (fun m => if m = soma then somaType else init m),
    pre, post, ?_, heq, hpre, hpost, ?_, ?_⟩
  · unfold fixStructureAssignment
    rw [hroots]
    simp only []
    rw [if_neg (by simpa using hchildren)]
    unfold selectAxon
    rw [hfold]
  · intro m hm
    have huniq : ∀ c' ∈ successors g soma, inSubtreeB g c' m = true → c' = axon := by
      intro c' hc' hin
      by_contra hne
      exact subtree_disjoint g hsoma (successors_parent g hc').1
        (successors_parent g haxmem).1 hne hin hm
    have hw := mark_fold_write g
      (fun c => if c = axon then axonType else basalDendriteType)
      (successors g soma) (fun m => if m = soma then somaType else init m) m axon haxmem hm huniq
    rw [hw]
    simp
  · intro c hc hne m hm
    have huniq : ∀ c' ∈ successors g soma, inSubtreeB g c' m = true → c' = c := by
      intro c' hc' hin
      by_contra hne'
      exact subtree_disjoint g hsoma (successors_parent g hc').1
        (successors_parent g hc).1 hne' hin hm
    have hw := mark_fold_write g
      (fun c => if c = axon then axonType else basalDendriteType)
      (successors g soma) (fun m => if m = soma then somaType else init m) m c hc hm huniq
    rw [hw]
    simp [hne]

theorem c1_axon_selection_witness :
    rootsList gW = [0] ∧ successors gW 0 ≠ [] ∧
    (∃ axon labels pre post,
      fixStructureAssignment gW (fun _ => 0) = .ok labels ∧
      successors gW 0 = pre ++ axon :: post ∧
      (∀ c ∈ pre, depthOf gW c < depthOf gW axon) ∧
      (∀ c ∈ post, depthOf gW c ≤ depthOf gW axon) ∧
      (∀ m, inSubtreeB gW axon m = true → labels m = axonType) ∧
      (∀ c ∈ successors gW 0, c ≠ axon →
        ∀ m, inSubtreeB gW c m = true → labels m = basalDendriteType)) :=
  ⟨by decide, by decide, c1_axon_selection gW (fun _ => 0) 0 (by decide) (by decide)⟩

/-- C4 (claim as stated is false): a graph with two parentless nodes is NOT
rejected — `fix_structure_assignment` raises only when there are zero roots and
otherwise silently takes the first root as the soma, so `assign` succeeds on a
two-root graph instead of failing with a missing-root error. -/
theorem c4_multi_root_refuted :
    rootsList gTwoRoots = [1, 2] ∧
    isOkE (fixStructureAssignment gTwoRoots (fun _ => 0)) = true := by
  constructor
  · decide
  · decide

/-- C4 (amended): for any well-formed graph (forest invariant) with exactly one
parentless node, the assigner succeeds, labels that node SOMA, and labels every
node SOMA, AXON or BASAL_DENDRITE; for a graph with zero parentless nodes it
fails with the missing-root error; but for a graph with more than one parentless
node it does NOT fail — the first parentless node in iteration order is silently
used as the soma and labeled SOMA. -/
theorem c4_root_handling :
    (∀ (g : NGraph) (init : Nat → Nat) (soma : Nat), WF g → rootsList g = [soma] →
      ∃ labels, fixStructureAssignment g init = .ok labels ∧
        labels soma = somaType ∧
        ∀ m ∈ g.nodes, labels m = somaType ∨ labels m = axonType ∨
          labels m = basalDendriteType) ∧
    (∀ (g : NGraph) (init : Nat → Nat), rootsList g = [] →
      fixStructureAssignment g init =
        .error "ValueError: No root node (soma) found in the neuron graph") ∧
    (∀ (g : NGraph) (init : Nat → Nat) (r1 r2 : Nat) (rest : List Nat),
      rootsList g = r1 :: r2 :: rest →
      ∃ labels, fixStructureAssignment g init = .ok labels ∧ labels r1 = somaType) := by
  refine ⟨?_, ?_, ?_⟩
  · intro g init soma hwf hroots
    obtain ⟨hsoma, hsomamem⟩ := soma_root g hroots
    by_cases hemp : successors g soma = []
    · refine ⟨fun m => if m = soma then somaType else init m, ?_, by simp, ?_⟩
      · unfold fixStructureAssignment
        rw [hroots]
        simp only []
        rw [if_pos (by simp [hemp])]
      · intro m hm
        by_cases hms : m = soma
        · subst hms
          left
          simp
        · obtain ⟨k, hk, hit⟩ := root_unique_reach g hwf hroots hm
          obtain ⟨c, hc, -⟩ := reach_child g hwf.2.1 hm hk hit hms
          rw [hemp] at hc
          exact absurd hc (List.not_mem_nil c)
    · obtain ⟨c0, hc0⟩ := List.exists_mem_of_ne_nil _ hemp
      obtain ⟨pre, axon, post, heq, -, hpre, hpost, hfold⟩ :=
        sel_first g (successors g soma) none 0
          ⟨c0, hc0, lt_of_lt_of_le (by omega) (depthOf_pos g c0)⟩
      have haxmem : axon ∈ successors g soma := by
        rw [heq]
        exact List.mem_append_right _ (List.mem_cons_self _ _)
      have hsomaskip : ∀ c ∈ successors g soma, inSubtreeB g c soma = false := by
        intro c hc
        exact soma_not_in_child_subtree g hsoma (successors_parent g hc).1
      refine ⟨(successors g soma).foldl
        (fun ls c => markSubtree g ls c (if c = axon then axonType else basalDendriteType))
        (fun m => if m = soma then somaType else init m), ?_, ?_, ?_⟩
      · unfold fixStructureAssignment
        rw [hroots]
        simp only []
        rw [if_neg (by simpa using hemp)]
        unfold selectAxon
        rw [hfold]
      · rw [mark_fold_skip g _ (successors g soma) _ soma hsomaskip]
        simp
      · intro m hm
        by_cases hms : m = soma
        · left
          rw [hms]
          rw [mark_fold_skip g _ (successors g soma) _ soma hsomaskip]
          simp
        · obtain ⟨k, hk, hit⟩ := root_unique_reach g hwf hroots hm
          obtain ⟨c, hc, hin⟩ := reach_child g hwf.2.1 hm hk hit hms
          have huniq : ∀ c' ∈ successors g soma, inSubtreeB g c' m = true → c' = c := by
            intro c' hc' hin'
            by_contra hne'
            exact subtree_disjoint g hsoma (successors_parent g hc').1
              (successors_parent g hc).1 hne' hin' hin
          rw [mark_fold_write g
            (fun c => if c = axon then axonType else basalDendriteType)
            (successors g soma) (fun m => if m = soma then somaType else init m)
            m c hc hin huniq]
          by_cases hca : c = axon
          · right
            left
            simp [hca]
          · right
            right
            simp [hca]
  · intro g init hroots
    unfold fixStructureAssignment
    rw [hroots]
  · intro g init r1 r2 rest hroots
    obtain ⟨hsoma, hsomamem⟩ := soma_root g hroots
    by_cases hemp : successors g r1 = []
    · refine ⟨fun m => if m = r1 then somaType else init m, ?_, by simp⟩
      unfold fixStructureAssignment
      rw [hroots]
      simp only []
      rw [if_pos (by simp [hemp])]
    · obtain ⟨c0, hc0⟩ := List.exists_mem_of_ne_nil _ hemp
      obtain ⟨pre, axon, post, heq, -, hpre, hpost, hfold⟩ :=
        sel_first g (successors g r1) none 0
          ⟨c0, hc0, lt_of_lt_of_le (by omega) (depthOf_pos g c0)⟩
      have hsomaskip : ∀ c ∈ successors g r1, inSubtreeB g c r1 = false := by
        intro c hc
        exact soma_not_in_child_subtree g hsoma (successors_parent g hc).1
      refine ⟨(successors g r1).foldl
        (fun ls c => markSubtree g ls c (if c = axon then axonType else basalDendriteType))
        (fun m => if m = r1 then somaType else init m), ?_, ?_⟩
      · unfold fixStructureAssignment
        rw [hroots]
        simp only []
        rw [if_neg (by simpa using hemp)]
        unfold selectAxon
        rw [hfold]
      · rw [mark_fold_skip g _ (successors g r1) _ r1 hsomaskip]
        simp

theorem c4_root_handling_witness :
    (WF gW ∧ rootsList gW = [0] ∧
      ∃ labels, fixStructureAssignment gW (fun _ => 0) = .ok labels ∧
        labels 0 = somaType ∧
        ∀ m ∈ gW.nodes, labels m = somaType ∨ labels m = axonType ∨
          labels m = basalDendriteType) ∧
    (rootsList gCyc = [] ∧
      fixStructureAssignment gCyc (fun _ => 0) =
        .error "ValueError: No root node (soma) found in the neuron graph") ∧
    (rootsList gTwoRoots = [1, 2] ∧
      ∃ labels, fixStructureAssignment gTwoRoots (fun _ => 0) = .ok labels ∧
        labels 1 = somaType) := by
  refine ⟨⟨?_, by decide, c4_root_handling.1 gW (fun _ => 0) 0 ?_ (by decide)⟩,
    ⟨by decide, c4_root_handling.2.1 gCyc (fun _ => 0) (by decide)⟩,
    ⟨by decide, c4_root_handling.2.2 gTwoRoots (fun _ => 0) 1 2 [] (by decide)⟩⟩
  · refine ⟨by decide, ?_, ?_⟩
    · decide
    · decide
  · refine ⟨by decide, ?_, ?_⟩
    · decide
    · decide

/-! ### Nearest-node lemmas -/

theorem getD_eq_of_lt (l : List Point) (i : Nat) (d d' : Point) (h : i < l.length) :
    l.getD i d = l.getD i d' := by
  rw [List.getD_eq_getElem l d h, List.getD_eq_getElem l d' h]

theorem nearestIdx_lt (p : Point) : ∀ l : List Point, l ≠ [] → nearestIdx p l < l.length := by
  intro l
  induction l with
  | nil => intro h; exact absurd rfl h
  | cons q rest ih =>
    intro _
    cases rest with
    | nil => simp [nearestIdx]
    | cons r rest' =>
      simp only [nearestIdx]
      by_cases hle : distR q p ≤
          distR ((r :: rest').getD (nearestIdx p (r :: rest')) q) p
      · rw [if_pos hle]
        simp
      · rw [if_neg hle]
        have hj := ih (by simp)
        simp only [List.length_cons] at hj ⊢
        omega

theorem nearestIdx_min (p d0 : Point) :
    ∀ l : List Point, ∀ i < l.length,
      distR (l.getD (nearestIdx p l) d0) p ≤ distR (l.getD i d0) p := by
  intro l
  induction l with
  | nil => intro i hi; simp at hi
  | cons q rest ih =>
    intro i hi
    cases rest with
    | nil =>
      have hi0 : i = 0 := by
        simp only [List.length_cons, List.length_nil] at hi
        omega
      subst hi0
      simp [nearestIdx]
    | cons r rest' =>
      have hjlt : nearestIdx p (r :: rest') < (r :: rest').length :=
        nearestIdx_lt p (r :: rest') (by simp)
      have hgd : (r :: rest').getD (nearestIdx p (r :: rest')) q =
          (r :: rest').getD (nearestIdx p (r :: rest')) d0 :=
        getD_eq_of_lt _ _ _ _ hjlt
      simp only [nearestIdx]
      by_cases hle : distR q p ≤
          distR ((r :: rest').getD (nearestIdx p (r :: rest')) q) p
      · rw [if_pos hle]
        rw [List.getD_cons_zero]
        cases i with
        | zero => rw [List.getD_cons_zero]
        | succ i =>
          rw [List.getD_cons_succ]
          rw [hgd] at hle
          exact le_trans hle (ih i (by simpa using hi))
      · rw [if_neg hle]
        rw [List.getD_cons_succ]
        push_neg at hle
        rw [hgd] at hle
        cases i with
        | zero =>
          rw [List.getD_cons_zero]
          exact le_of_lt hle
        | succ i =>
          rw [List.getD_cons_succ]
          exact ih i (by simpa using hi)

theorem nearestIdx_first (p d0 : Point) :
    ∀ l : List Point, ∀ i < nearestIdx p l,
      distR (l.getD (nearestIdx p l) d0) p < distR (l.getD i d0) p := by
  intro l
  induction l with
  | nil => intro i hi; simp [nearestIdx] at hi
  | cons q rest ih =>
    intro i hi
    cases rest with
    | nil => simp [nearestIdx] at hi
    | cons r rest' =>
      have hjlt : nearestIdx p (r :: rest') < (r :: rest').length :=
        nearestIdx_lt p (r :: rest') (by simp)
      have hgd : (r :: rest').getD (nearestIdx p (r :: rest')) q =
          (r :: rest').getD (nearestIdx p (r :: rest')) d0 :=
        getD_eq_of_lt _ _ _ _ hjlt
      simp only [nearestIdx] at hi ⊢
      by_cases hle : distR q p ≤
          distR ((r :: rest').getD (nearestIdx p (r :: rest')) q) p
      · rw [if_pos hle] at hi
        simp at hi
      · rw [if_neg hle] at hi ⊢
        rw [List.getD_cons_succ]
        push_neg at hle
        rw [hgd] at hle
        cases i with
        | zero =>
          rw [List.getD_cons_zero]
          exact hle
        | succ i =>
          rw [List.getD_cons_succ]
          exact ih i (by omega)

/-! ### Rebinding-fold lemmas -/

theorem rebindChildren_cons (rid c : Nat) (cs : List Nat) (w : World) :
    rebindChildren rid (c :: cs) w =
      rebindChildren rid cs
        (match (w.store c).startJoin with
         | none => w
         | some s =>
           setPath w c
             { w.store c with
               startJoin := some (rid, ((w.store rid).points).getD
                 (nearestIdx s.2 ((w.store rid).points)) ((0:ℝ), (0:ℝ), (0:ℝ))) }) := by
  rw [rebindChildren, List.foldl_cons, rebindChildren]

theorem rebindChildren_points (rid : Nat) :
    ∀ (cs : List Nat) (w : World) (x : Nat),
      ((rebindChildren rid cs w).store x).points = (w.store x).points := by
  intro cs
  induction cs with
  | nil => intro w x; rfl
  | cons c rest ih =>
    intro w x
    rw [rebindChildren_cons]
    rw [ih]
    cases hs : (w.store c).startJoin with
    | none => rfl
    | some s =>
      simp only [setPath]
      by_cases hx : x = c
      · rw [hx]
        simp
      · simp [hx]

theorem rebindChildren_tree (rid : Nat) :
    ∀ (cs : List Nat) (w : World), (rebindChildren rid cs w).tree = w.tree := by
  intro cs
  induction cs with
  | nil => intro w; rfl
  | cons c rest ih =>
    intro w
    rw [rebindChildren_cons, ih]
    cases (w.store c).startJoin <;> rfl

theorem rebindChildren_notmem (rid : Nat) :
    ∀ (cs : List Nat) (w : World) (x : Nat), x ∉ cs →
      (rebindChildren rid cs w).store x = w.store x := by
  intro cs
  induction cs with
  | nil => intro w x _; rfl
  | cons c rest ih =>
    intro w x hx
    have hxc : x ≠ c := fun h => hx (h ▸ List.mem_cons_self _ _)
    have hxr : x ∉ rest := fun h => hx (List.mem_cons_of_mem _ h)
    rw [rebindChildren_cons, ih _ _ hxr]
    cases (w.store c).startJoin with
    | none => rfl
    | some s => simp [setPath, hxc]

theorem rebindChildren_mem (rid : Nat) :
    ∀ (cs : List Nat) (w : World) (c : Nat), cs.Nodup → c ∈ cs →
      (rebindChildren rid cs w).store c =
        (match (w.store c).startJoin with
         | none => w.store c
         | some s =>
           { w.store c with
             startJoin := some (rid, ((w.store rid).points).getD
               (nearestIdx s.2 ((w.store rid).points)) ((0:ℝ), (0:ℝ), (0:ℝ))) }) := by
  intro cs
  induction cs with
  | nil => intro w c _ hc; exact absurd hc (List.not_mem_nil c)
  | cons d rest ih =>
    intro w c hnd hc
    have hdrest : d ∉ rest := (List.nodup_cons.mp hnd).1
    have hrest : rest.Nodup := (List.nodup_cons.mp hnd).2
    rw [rebindChildren_cons]
    rcases List.mem_cons.mp hc with rfl | hcr
    · rw [rebindChildren_notmem rid rest _ c hdrest]
      cases hs : (w.store c).startJoin with
      | none => rfl
      | some s => simp [setPath]
    · have hcd : c ≠ d := fun h => hdrest (h ▸ hcr)
      rw [ih _ c hrest hcr]
      cases hsd : (w.store d).startJoin with
      | none => rfl
      | some sd =>
        have hstc : (setPath w d
            { w.store d with
              startJoin := some (rid, ((w.store rid).points).getD
                (nearestIdx sd.2 ((w.store rid).points)) ((0:ℝ), (0:ℝ), (0:ℝ))) }).store c =
            w.store c := by
          simp [setPath, hcd]
        have hstr : ((setPath w d
            { w.store d with
              startJoin := some (rid, ((w.store rid).points).getD
                (nearestIdx sd.2 ((w.store rid).points)) ((0:ℝ), (0:ℝ), (0:ℝ))) }).store
              rid).points =
            (w.store rid).points := by
          by_cases hrd : rid = d
          · rw [hrd]
            simp [setPath]
          · simp [setPath, hrd]
        rw [hstc, hstr]

theorem joinTransfer_store_other (w : World) (pid rid x : Nat) (hxp : x ≠ pid)
    (hxr : x ≠ rid) : (joinTransfer w pid rid).store x = w.store x := by
  unfold joinTransfer
  cases (w.store pid).startJoin with
  | none => rfl
  | some s => simp [setPath, hxp, hxr]

theorem joinTransfer_points (w : World) (pid rid x : Nat) :
    ((joinTransfer w pid rid).store x).points = (w.store x).points := by
  unfold joinTransfer
  cases (w.store pid).startJoin with
  | none => rfl
  | some s =>
    by_cases hxr : x = rid
    · subst hxr
      by_cases hxp : x = pid
      · subst hxp
        simp [setPath]
      · simp [setPath, hxp]
    · by_cases hxp : x = pid
      · subst hxp
        simp [setPath, hxr]
      · simp [setPath, hxp, hxr]

theorem joinTransfer_tree (w : World) (pid rid : Nat) :
    (joinTransfer w pid rid).tree = w.tree := by
  unfold joinTransfer
  cases (w.store pid).startJoin with
  | none => rfl
  | some s => rfl

theorem joinTransfer_objects (w : World) (pid rid : Nat) :
    (joinTransfer w pid rid).objects = w.objects := by
  unfold joinTransfer
  cases (w.store pid).startJoin with
  | none => rfl
  | some s => rfl

theorem joinTransfer_fresh (w : World) (pid rid : Nat) :
    (joinTransfer w pid rid).fresh = w.fresh := by
  unfold joinTransfer
  cases (w.store pid).startJoin with
  | none => rfl
  | some s => rfl

theorem rewireStep_spec (w wmid : World) (pid rid : Nat)
    (hkeep : ∀ c, c ≠ pid → c ≠ rid → wmid.store c = w.store c)
    (hnodupm : wmid.objects.Nodup)
    (hsub : ∀ c, c ∈ w.objects → c ∈ wmid.objects)
    (htreeeq : wmid.tree = w.tree)
    (hpid : pid ∈ w.tree) :
    rid ∈ (rewireStep wmid pid rid).tree ∧
    ((rewireStep wmid pid rid).store rid).points = (wmid.store rid).points ∧
    (∀ c ∈ childrenOf w pid, c ≠ pid → c ≠ rid →
      ∃ pt, (w.store c).startJoin = some (pid, pt) ∧
        ((rewireStep wmid pid rid).store c).startJoin = some (rid,
          ((wmid.store rid).points).getD (nearestIdx pt ((wmid.store rid).points))
            ((0:ℝ), (0:ℝ), (0:ℝ)))) := by
  rw [rewireStep]
  set w1 : World := { wmid with tree := wmid.tree ++ [rid] } with hw1
  have hw1store : w1.store = wmid.store := rfl
  set w2 : World := joinTransfer w1 pid rid with hw2
  have hw2store : ∀ x, x ≠ pid → x ≠ rid → w2.store x = wmid.store x := by
    intro x hxp hxr
    rw [hw2, joinTransfer_store_other w1 pid rid x hxp hxr]
  have hw2points : (w2.store rid).points = (wmid.store rid).points := by
    rw [hw2, joinTransfer_points w1 pid rid rid]
  have hw2tree : w2.tree = wmid.tree ++ [rid] := by
    rw [hw2, joinTransfer_tree]
  have hw2objects : w2.objects = wmid.objects := by
    rw [hw2, joinTransfer_objects]
  set cs : List Nat := childrenOf w2 pid with hcs
  have hcs_nodup : cs.Nodup := by
    rw [hcs]
    unfold childrenOf
    rw [hw2objects]
    exact hnodupm.filter _
  have hcs_sub : ∀ c ∈ childrenOf w pid, c ≠ pid → c ≠ rid → c ∈ cs := by
    intro c hc hcp hcr
    rw [hcs]
    unfold childrenOf at hc ⊢
    rw [List.mem_filter] at hc ⊢
    rw [hw2objects, hw2store c hcp hcr, hkeep c hcp hcr]
    exact ⟨hsub c hc.1, hc.2⟩
  set w3 : World := rebindChildren rid cs w2 with hw3
  refine ⟨?_, ?_, ?_⟩
  · show rid ∈ (w3.tree.erase pid)
    have ht3 : w3.tree = w.tree ++ [rid] := by
      rw [hw3, rebindChildren_tree, hw2tree, htreeeq]
    rw [ht3]
    by_cases hrp : rid = pid
    · subst hrp
      have hcount : 0 < ((w.tree ++ [rid]).erase rid).count rid := by
        rw [List.count_erase_self]
        have : rid ∈ w.tree ++ [rid] := List.mem_append_right _ (List.mem_cons_self _ _)
        have h1 : (w.tree ++ [rid]).count rid = w.tree.count rid + 1 := by
          rw [List.count_append]
          simp
        rw [h1]
        have h2 : 0 < w.tree.count rid := List.count_pos_iff.mpr hpid
        omega
      exact List.count_pos_iff.mp hcount
    · rw [List.mem_erase_of_ne hrp]
      exact List.mem_append_right _ (List.mem_cons_self _ _)
  · show ((w3.store) rid).points = (wmid.store rid).points
    rw [hw3, rebindChildren_points, hw2points]
  · intro c hc hcp hcr
    have hcmem : c ∈ cs := hcs_sub c hc hcp hcr
    unfold childrenOf at hc
    rw [List.mem_filter] at hc
    have hjoin : ∃ pt, (w.store c).startJoin = some (pid, pt) := by
      rcases hsj : (w.store c).startJoin with _ | s
      · rw [hsj] at hc
        simp at hc
      · rw [hsj] at hc
        obtain ⟨jid, pt⟩ := s
        have hjp : jid = pid := by simpa using hc.2
        subst hjp
        exact ⟨pt, rfl⟩
    obtain ⟨pt, hpt⟩ := hjoin
    refine ⟨pt, hpt, ?_⟩
    show ((w3.store) c).startJoin = _
    rw [hw3, rebindChildren_mem rid cs w2 c hcs_nodup hcmem]
    have hw2c : w2.store c = w.store c := by
      rw [hw2store c hcp hcr, hkeep c hcp hcr]
    rw [hw2c, hpt, hw2points]

theorem getD_mem (l : List Point) (i : Nat) (d : Point) (h : i < l.length) :
    l.getD i d ∈ l := by
  rw [List.getD_eq_getElem l d h]
  exact List.getElem_mem _

theorem splevAll_ok_ne_nil (pts : List Point) (samples : List ℝ) (out : List Point)
    (h : splevAll pts samples = .ok out) : out ≠ [] := by
  simp only [splevAll] at h
  by_cases hs : samples = []
  · rw [if_pos hs] at h
    exact absurd h (by simp)
  · rw [if_neg hs] at h
    by_cases hp : pts.length ≤ 1
    · rw [if_pos hp] at h
      exact absurd h (by simp)
    · rw [if_neg hp] at h
      have hout : out = (samples.map fun x => min (max (x / maxList samples) 0) 1).map
          (fun t => polylineAt pts (t * polyLen pts)) := (Except.ok.inj h).symm
      rw [hout]
      simp [hs]

theorem resampleCore_ok_ne_nil (points : List Point) (s : ℝ) (out : List Point)
    (h : resampleCore points s = .ok out) : out ≠ [] := by
  simp only [resampleCore] at h
  split at h
  · exact absurd h (by simp)
  · split at h
    · exact absurd h (by simp)
    · split at h
      · exact splevAll_ok_ne_nil _ _ _ h
      · split at h
        · exact absurd h (by simp)
        · exact splevAll_ok_ne_nil _ _ _ h

theorem rebindChildren_objects (rid : Nat) :
    ∀ (cs : List Nat) (w : World), (rebindChildren rid cs w).objects = w.objects := by
  intro cs
  induction cs with
  | nil => intro w; rfl
  | cons c rest ih =>
    intro w
    rw [rebindChildren_cons, ih]
    cases (w.store c).startJoin <;> rfl

theorem rebindChildren_fresh (rid : Nat) :
    ∀ (cs : List Nat) (w : World), (rebindChildren rid cs w).fresh = w.fresh := by
  intro cs
  induction cs with
  | nil => intro w; rfl
  | cons c rest ih =>
    intro w
    rw [rebindChildren_cons, ih]
    cases (w.store c).startJoin <;> rfl

theorem rebindChildren_join (rid : Nat) (cs : List Nat) (w : World) (c : Nat)
    (hnd : cs.Nodup) (hc : c ∈ cs) (s : Nat × Point)
    (hs : (w.store c).startJoin = some s) :
    ((rebindChildren rid cs w).store c).startJoin =
      some (rid, ((w.store rid).points).getD (nearestIdx s.2 ((w.store rid).points))
        ((0:ℝ), (0:ℝ), (0:ℝ))) := by
  rw [rebindChildren_mem rid cs w c hnd hc, hs]

theorem joinTransfer_eq_none (w : World) (pid rid : Nat)
    (h : (w.store pid).startJoin = none) : joinTransfer w pid rid = w := by
  unfold joinTransfer
  rw [h]

theorem joinTransfer_join_rid (w : World) (pid rid : Nat) (s : Nat × Point)
    (h : (w.store pid).startJoin = some s) :
    ((joinTransfer w pid rid).store rid).startJoin = some s := by
  unfold joinTransfer
  rw [h]
  simp [setPath]

theorem joinTransfer_join_pid (w : World) (pid rid : Nat) (s : Nat × Point)
    (h : (w.store pid).startJoin = some s) (hne : pid ≠ rid) :
    ((joinTransfer w pid rid).store pid).startJoin = none := by
  unfold joinTransfer
  rw [h]
  simp [setPath, hne]

theorem rewireStep_store_eq (wmid : World) (pid rid x : Nat) :
    (rewireStep wmid pid rid).store x =
      (rebindChildren rid
        (childrenOf (joinTransfer { wmid with tree := wmid.tree ++ [rid] } pid rid) pid)
        (joinTransfer { wmid with tree := wmid.tree ++ [rid] } pid rid)).store x := rfl

theorem rewireStep_points (wmid : World) (pid rid x : Nat) :
    ((rewireStep wmid pid rid).store x).points = (wmid.store x).points := by
  rw [rewireStep_store_eq, rebindChildren_points, joinTransfer_points]

theorem rewireStep_tree_eq (wmid : World) (pid rid : Nat) :
    (rewireStep wmid pid rid).tree = (wmid.tree ++ [rid]).erase pid := by
  have h0 : (rewireStep wmid pid rid).tree =
      ((rebindChildren rid
        (childrenOf (joinTransfer { wmid with tree := wmid.tree ++ [rid] } pid rid) pid)
        (joinTransfer { wmid with tree := wmid.tree ++ [rid] } pid rid)).tree).erase pid := rfl
  rw [h0, rebindChildren_tree, joinTransfer_tree]

theorem rewireStep_objects_eq (wmid : World) (pid rid : Nat) :
    (rewireStep wmid pid rid).objects = wmid.objects := by
  have h0 : (rewireStep wmid pid rid).objects =
      (rebindChildren rid
        (childrenOf (joinTransfer { wmid with tree := wmid.tree ++ [rid] } pid rid) pid)
        (joinTransfer { wmid with tree := wmid.tree ++ [rid] } pid rid)).objects := rfl
  rw [h0, rebindChildren_objects, joinTransfer_objects]

theorem rewireStep_fresh_eq (wmid : World) (pid rid : Nat) :
    (rewireStep wmid pid rid).fresh = wmid.fresh := by
  have h0 : (rewireStep wmid pid rid).fresh =
      (rebindChildren rid
        (childrenOf (joinTransfer { wmid with tree := wmid.tree ++ [rid] } pid rid) pid)
        (joinTransfer { wmid with tree := wmid.tree ++ [rid] } pid rid)).fresh := rfl
  rw [h0, rebindChildren_fresh, joinTransfer_fresh]

theorem World_ext (a b : World) (h1 : a.store = b.store) (h2 : a.objects = b.objects)
    (h3 : a.tree = b.tree) (h4 : a.fresh = b.fresh) : a = b := by
  cases a
  cases b
  congr 1

theorem rewireStep_joinInv (w wmid : World) (pid rid : Nat) (remaining : List Nat)
    (hrem : ∀ r ∈ pid :: remaining, r ∈ w.objects)
    (htr : ∀ t ∈ w.tree, t ∈ w.objects)
    (hjoin : ∀ c ∈ w.objects, ∀ i q, (w.store c).startJoin = some (i, q) →
      i ∈ w.objects ∧ i ≠ c ∧ (w.store i).points ≠ [] ∧
      (i ∈ pid :: remaining ∨ q ∈ (w.store i).points))
    (hmnd : wmid.objects.Nodup)
    (hmfr : ∀ o ∈ wmid.objects, o < wmid.fresh)
    (hmobj : ∀ x ∈ w.objects, x ∈ wmid.objects)
    (hmobj' : ∀ x ∈ wmid.objects, x ∈ w.objects ∨ x = rid)
    (hridm : rid ∈ wmid.objects)
    (hmtree : wmid.tree = w.tree)
    (hmstore : ∀ x, x ≠ rid → wmid.store x = w.store x)
    (hmpts : ∀ x ∈ w.objects, (wmid.store x).points = (w.store x).points)
    (hpjoin : (wmid.store pid).startJoin = (w.store pid).startJoin)
    (hridnone : (w.store pid).startJoin = none → (wmid.store rid).startJoin = none)
    (hridsep : rid = pid ∨ ∀ o ∈ w.objects, o ≠ rid)
    (hridpts : ∀ c ∈ w.objects, ∀ q, (w.store c).startJoin = some (pid, q) →
      (wmid.store rid).points ≠ []) :
    JoinInv (rewireStep wmid pid rid) remaining := by
  have hpidobj : pid ∈ w.objects := hrem pid (List.mem_cons_self _ _)
  obtain ⟨w2, hw2⟩ : ∃ w2,
      joinTransfer { wmid with tree := wmid.tree ++ [rid] } pid rid = w2 := ⟨_, rfl⟩
  have key : ∀ x, (rewireStep wmid pid rid).store x =
      (rebindChildren rid (childrenOf w2 pid) w2).store x := by
    intro x
    rw [← hw2]
    exact rewireStep_store_eq wmid pid rid x
  have hw2store : ∀ x, x ≠ pid → x ≠ rid → w2.store x = wmid.store x := by
    intro x hxp hxr
    rw [← hw2]
    exact joinTransfer_store_other _ pid rid x hxp hxr
  have hw2pts : ∀ x, (w2.store x).points = (wmid.store x).points := by
    intro x
    rw [← hw2]
    exact joinTransfer_points _ pid rid x
  have hw2objects : w2.objects = wmid.objects := by
    rw [← hw2]
    exact joinTransfer_objects _ pid rid
  have hw2rid : ∀ s : Nat × Point, (w.store pid).startJoin = some s →
      (w2.store rid).startJoin = some s := by
    intro s hs
    rw [← hw2]
    exact joinTransfer_join_rid _ pid rid s (hpjoin.trans hs)
  have hw2none : (w.store pid).startJoin = none → ∀ x, w2.store x = wmid.store x := by
    intro hn x
    rw [← hw2,
      joinTransfer_eq_none { wmid with tree := wmid.tree ++ [rid] } pid rid (hpjoin.trans hn)]
  have hw2pid : ∀ s : Nat × Point, (w.store pid).startJoin = some s → pid ≠ rid →
      (w2.store pid).startJoin = none := by
    intro s hs hne
    rw [← hw2]
    exact joinTransfer_join_pid _ pid rid s (hpjoin.trans hs) hne
  have hcs_mem : ∀ c, c ∈ childrenOf w2 pid ↔
      (c ∈ wmid.objects ∧ ((w2.store c).startJoin.map Prod.fst) = some pid) := by
    intro c
    unfold childrenOf
    rw [List.mem_filter, hw2objects]
    constructor
    · rintro ⟨ha, hb⟩
      exact ⟨ha, by simpa using hb⟩
    · rintro ⟨ha, hb⟩
      exact ⟨ha, by simpa using hb⟩
  have hpidjoin : ∀ i q, (w.store pid).startJoin = some (i, q) → i ≠ pid := by
    intro i q hiq
    exact (hjoin pid hpidobj i q hiq).2.1
  have hpid_notin : pid ∉ childrenOf w2 pid := by
    intro hmem
    rcases (hcs_mem pid).mp hmem with ⟨_, hmap⟩
    rcases hsj : (w.store pid).startJoin with _ | s
    · rw [hw2none hsj pid, hpjoin, hsj] at hmap
      simp at hmap
    · obtain ⟨jid, qq⟩ := s
      have hjne : jid ≠ pid := hpidjoin jid qq hsj
      by_cases hpr : pid = rid
      · have hj2 := hw2rid (jid, qq) hsj
        rw [hpr, hj2] at hmap
        simp at hmap
        exact hjne (hmap.trans hpr.symm)
      · rw [hw2pid (jid, qq) hsj hpr] at hmap
        simp at hmap
  have hrid_notin : rid ∉ childrenOf w2 pid := by
    intro hmem
    rcases (hcs_mem rid).mp hmem with ⟨_, hmap⟩
    rcases hsj : (w.store pid).startJoin with _ | s
    · rw [hw2none hsj rid, hridnone hsj] at hmap
      simp at hmap
    · obtain ⟨jid, qq⟩ := s
      have hjne : jid ≠ pid := hpidjoin jid qq hsj
      rw [hw2rid (jid, qq) hsj] at hmap
      simp at hmap
      exact hjne hmap
  have hcs_w : ∀ c ∈ childrenOf w2 pid, c ∈ w.objects ∧ c ≠ pid ∧ c ≠ rid ∧
      ∃ q, (w.store c).startJoin = some (pid, q) := by
    intro c hc
    have hcp : c ≠ pid := fun h => hpid_notin (h ▸ hc)
    have hcr : c ≠ rid := fun h => hrid_notin (h ▸ hc)
    rcases (hcs_mem c).mp hc with ⟨hcm, hmap⟩
    have hcw : c ∈ w.objects := by
      rcases hmobj' c hcm with h | h
      · exact h
      · exact absurd h hcr
    have hstc : w2.store c = w.store c := by
      rw [hw2store c hcp hcr]
      exact hmstore c hcr
    rw [hstc] at hmap
    rcases hsj : (w.store c).startJoin with _ | s
    · rw [hsj] at hmap
      simp at hmap
    · obtain ⟨jid, qq⟩ := s
      rw [hsj] at hmap
      simp at hmap
      exact ⟨hcw, hcp, hcr, qq, by rw [hmap]⟩
  have hcs_nodup : (childrenOf w2 pid).Nodup := by
    have hnd2 : w2.objects.Nodup := by
      rw [hw2objects]
      exact hmnd
    unfold childrenOf
    exact hnd2.filter _
  have hobjeq : (rewireStep wmid pid rid).objects = wmid.objects :=
    rewireStep_objects_eq wmid pid rid
  have hfreq : (rewireStep wmid pid rid).fresh = wmid.fresh :=
    rewireStep_fresh_eq wmid pid rid
  have htreq : (rewireStep wmid pid rid).tree = (wmid.tree ++ [rid]).erase pid :=
    rewireStep_tree_eq wmid pid rid
  have hpteq : ∀ x, ((rewireStep wmid pid rid).store x).points = (wmid.store x).points :=
    fun x => rewireStep_points wmid pid rid x
  refine ⟨?_, ?_, ?_, ?_, ?_⟩
  · rw [hobjeq]
    exact hmnd
  · intro o ho
    rw [hobjeq] at ho
    rw [hfreq]
    exact hmfr o ho
  · intro r hr
    rw [hobjeq]
    exact hmobj r (hrem r (List.mem_cons_of_mem _ hr))
  · intro t ht
    rw [hobjeq]
    rw [htreq] at ht
    have ht2 : t ∈ wmid.tree ++ [rid] := List.mem_of_mem_erase ht
    rcases List.mem_append.mp ht2 with h | h
    · rw [hmtree] at h
      exact hmobj t (htr t h)
    · rw [List.mem_singleton] at h
      subst h
      exact hridm
  · intro c hc i q hq
    rw [hobjeq] at hc
    rw [key c] at hq
    by_cases hcs_c : c ∈ childrenOf w2 pid
    · obtain ⟨hcw, hcp, hcr, q0, hq0⟩ := hcs_w c hcs_c
      have hstc : w2.store c = w.store c := by
        rw [hw2store c hcp hcr]
        exact hmstore c hcr
      have hq2 := rebindChildren_join rid _ w2 c hcs_nodup hcs_c (pid, q0)
        (by rw [hstc]; exact hq0)
      rw [hq2] at hq
      have hq4 := Option.some.inj hq
      injection hq4 with hi hqv
      have hptsne : (wmid.store rid).points ≠ [] := hridpts c hcw q0 hq0
      have hw2r : (w2.store rid).points = (wmid.store rid).points := hw2pts rid
      have hne2 : (w2.store rid).points ≠ [] := by
        rw [hw2r]
        exact hptsne
      rw [← hi, ← hqv]
      refine ⟨?_, ?_, ?_, Or.inr ?_⟩
      · rw [hobjeq]
        exact hridm
      · exact fun h => hcr h.symm
      · rw [hpteq rid]
        exact hptsne
      · rw [hpteq rid, ← hw2r]
        exact getD_mem _ _ _ (nearestIdx_lt q0 _ hne2)
    · rw [rebindChildren_notmem rid _ w2 c hcs_c] at hq
      by_cases hcr : c = rid
      · rw [hcr] at hq
        rcases hsj : (w.store pid).startJoin with _ | s
        · rw [hw2none hsj rid, hridnone hsj] at hq
          exact absurd hq (by simp)
        · obtain ⟨jid, pt⟩ := s
          have hq4 : (jid, pt) = (i, q) :=
            Option.some.inj ((hw2rid (jid, pt) hsj).symm.trans hq)
          injection hq4 with hi hqv
          obtain ⟨hjo, hjne, hjpts, hjd⟩ := hjoin pid hpidobj jid pt hsj
          rw [hcr, ← hi, ← hqv]
          refine ⟨?_, ?_, ?_, ?_⟩
          · rw [hobjeq]
            exact hmobj jid hjo
          · rcases hridsep with h | h
            · rw [h]
              exact hjne
            · exact h jid hjo
          · rw [hpteq jid, hmpts jid hjo]
            exact hjpts
          · rcases hjd with h | h
            · rcases List.mem_cons.mp h with h0 | h0
              · exact absurd h0 hjne
              · exact Or.inl h0
            · right
              rw [hpteq jid, hmpts jid hjo]
              exact h
      · by_cases hcp : c = pid
        · rw [hcp] at hq
          have hpr : pid ≠ rid := hcp ▸ hcr
          rcases hsj : (w.store pid).startJoin with _ | s
          · rw [hw2none hsj pid, hpjoin, hsj] at hq
            exact absurd hq (by simp)
          · rw [hw2pid s hsj hpr] at hq
            exact absurd hq (by simp)
        · have hw2c : w2.store c = w.store c := by
            rw [hw2store c hcp hcr]
            exact hmstore c hcr
          rw [hw2c] at hq
          have hcw : c ∈ w.objects := by
            rcases hmobj' c hc with h | h
            · exact h
            · exact absurd h hcr
          obtain ⟨hio, hine, hipts, hid⟩ := hjoin c hcw i q hq
          refine ⟨?_, hine, ?_, ?_⟩
          · rw [hobjeq]
            exact hmobj i hio
          · rw [hpteq i, hmpts i hio]
            exact hipts
          · rcases hid with h | h
            · rcases List.mem_cons.mp h with h0 | h0
              · exfalso
                apply hcs_c
                refine (hcs_mem c).mpr ⟨hmobj c hcw, ?_⟩
                rw [hw2c, hq, h0]
                rfl
              · exact Or.inl h0
            · right
              rw [hpteq i, hmpts i hio]
              exact h

theorem processPath_joinInv (spacing : ℝ) (w : World) (pid : Nat) (remaining : List Nat)
    (w' : World) (hinv : JoinInv w (pid :: remaining))
    (h : processPath spacing w pid = .ok w') : JoinInv w' remaining := by
  obtain ⟨hnd, hfr, hrem, htr, hjoin⟩ := hinv
  have hpidobj : pid ∈ w.objects := hrem pid (List.mem_cons_self _ _)
  rw [processPath] at h
  by_cases hshort : (match (w.store pid).startJoin with
    | some s => s.2 :: (w.store pid).points
    | none => (w.store pid).points).length < 2
  · rw [if_pos hshort] at h
    have hw' : w' = rewireStep w pid pid := (Except.ok.inj h).symm
    subst hw'
    exact rewireStep_joinInv w w pid pid remaining hrem htr hjoin
      hnd hfr (fun x hx => hx) (fun x hx => Or.inl hx) hpidobj rfl
      (fun x _ => rfl) (fun x _ => rfl) rfl (fun hn => hn) (Or.inl rfl)
      (fun c hc q hq => (hjoin c hc pid q hq).2.2.1)
  · rw [if_neg hshort] at h
    rcases hrc : resampleCore (match (w.store pid).startJoin with
      | some s => s.2 :: (w.store pid).points
      | none => (w.store pid).points) spacing with e | newPts
    · rw [hrc] at h
      exact absurd h (by simp)
    · rw [hrc] at h
      have hw' : w' = rewireStep
          { store := fun j => if j = w.fresh then ⟨newPts, none⟩ else w.store j,
            objects := w.objects ++ [w.fresh],
            tree := w.tree,
            fresh := w.fresh + 1 } pid w.fresh := (Except.ok.inj h).symm
      subst hw'
      set wmid : World :=
        { store := fun j => if j = w.fresh then ⟨newPts, none⟩ else w.store j,
          objects := w.objects ++ [w.fresh],
          tree := w.tree,
          fresh := w.fresh + 1 } with hwm
      have hnewne : newPts ≠ [] := resampleCore_ok_ne_nil _ _ _ hrc
      have hpf : pid ≠ w.fresh := Nat.ne_of_lt (hfr pid hpidobj)
      have hmnd : wmid.objects.Nodup := by
        rw [hwm]
        simp only []
        rw [List.nodup_append]
        refine ⟨hnd, by simp, ?_⟩
        intro a ha hb
        rw [List.mem_singleton] at hb
        have := hfr a ha
        omega
      have hmfr : ∀ o ∈ wmid.objects, o < wmid.fresh := by
        intro o ho
        rw [hwm] at ho
        rcases List.mem_append.mp ho with hh | hh
        · have := hfr o hh
          rw [hwm]
          show o < w.fresh + 1
          omega
        · rw [List.mem_singleton] at hh
          rw [hwm]
          show o < w.fresh + 1
          omega
      have hmobj : ∀ x ∈ w.objects, x ∈ wmid.objects := by
        intro x hx
        rw [hwm]
        exact List.mem_append_left _ hx
      have hmobj' : ∀ x ∈ wmid.objects, x ∈ w.objects ∨ x = w.fresh := by
        intro x hx
        rw [hwm] at hx
        rcases List.mem_append.mp hx with hh | hh
        · exact Or.inl hh
        · rw [List.mem_singleton] at hh
          exact Or.inr hh
      have hridm : w.fresh ∈ wmid.objects := by
        rw [hwm]
        exact List.mem_append_right _ (List.mem_singleton.mpr rfl)
      have hmstore : ∀ x, x ≠ w.fresh → wmid.store x = w.store x := by
        intro x hx
        rw [hwm]
        simp [hx]
      have hmpts : ∀ x ∈ w.objects, (wmid.store x).points = (w.store x).points := by
        intro x hx
        have hxf : x ≠ w.fresh := Nat.ne_of_lt (hfr x hx)
        rw [hmstore x hxf]
      have hpjoin : (wmid.store pid).startJoin = (w.store pid).startJoin := by
        rw [hmstore pid hpf]
      have hridnone : (w.store pid).startJoin = none →
          (wmid.store w.fresh).startJoin = none := by
        intro _
        rw [hwm]
        simp
      have hridpts : ∀ c ∈ w.objects, ∀ q, (w.store c).startJoin = some (pid, q) →
          (wmid.store w.fresh).points ≠ [] := by
        intro c _ q _
        rw [hwm]
        simpa using hnewne
      exact rewireStep_joinInv w wmid pid w.fresh remaining hrem htr hjoin
        hmnd hmfr hmobj hmobj' hridm rfl hmstore hmpts hpjoin hridnone
        (Or.inr (fun o ho => Nat.ne_of_lt (hfr o ho))) hridpts

theorem processList_joinInv (spacing : ℝ) :
    ∀ (rest : List Nat) (w wF : World), JoinInv w rest →
      processList spacing rest w = .ok wF → JoinInv wF [] := by
  intro rest
  induction rest with
  | nil =>
    intro w wF hinv h
    have hw : w = wF := Except.ok.inj h
    exact hw ▸ hinv
  | cons pid rest ih =>
    intro w wF hinv h
    simp only [processList] at h
    rcases hp : processPath spacing w pid with e | w1
    · rw [hp] at h
      exact absurd h (by simp)
    · rw [hp] at h
      exact ih w1 wF (processPath_joinInv spacing w pid rest w1 hinv hp) h

theorem joinInv_final (wF : World) (h : JoinInv wF []) :
    ∀ c ∈ wF.tree, ∀ i q, (wF.store c).startJoin = some (i, q) →
      i ∈ wF.objects ∧ q ∈ (wF.store i).points := by
  obtain ⟨_, _, _, htr, hjoin⟩ := h
  intro c hc i q hq
  obtain ⟨hio, _, _, hd⟩ := hjoin c (htr c hc) i q hq
  rcases hd with h0 | h0
  · exact absurd h0 (List.not_mem_nil i)
  · exact ⟨hio, h0⟩

/-- One iteration of `resample_tree`'s loop on an original path `pid` of a
well-formed world: every branch that was a child of the original branch has
its start join rebound to the new resampled branch (`rid`, the same object in
the degenerate unchanged case, otherwise the freshly created path holding
`_resample`'s output, which stays in the tree) at a point that is an actual
node of the new branch: the node of minimum Euclidean distance to the child's
stored attachment point, and on ties the first such node when scanning the new
branch in order. -/
theorem processPath_rejoin (spacing : ℝ) (w : World) (pid : Nat) (w' : World)
    (hobj : w.objects.Nodup)
    (hfresh : ∀ o ∈ w.objects, o < w.fresh)
    (hptree : pid ∈ w.tree)
    (h : processPath spacing w pid = .ok w') :
    ∃ rid, rid ∈ w'.tree ∧
      (((match (w.store pid).startJoin with
         | some s => s.2 :: (w.store pid).points
         | none => (w.store pid).points).length < 2 ∧ rid = pid) ∨
       (rid = w.fresh ∧
        resampleCore (match (w.store pid).startJoin with
          | some s => s.2 :: (w.store pid).points
          | none => (w.store pid).points) spacing = .ok ((w'.store rid).points))) ∧
      ∀ c ∈ childrenOf w pid, c ≠ pid →
        ∃ pt, (w.store c).startJoin = some (pid, pt) ∧
          (w'.store c).startJoin = some (rid,
            ((w'.store rid).points).getD (nearestIdx pt ((w'.store rid).points))
              ((0:ℝ), (0:ℝ), (0:ℝ))) ∧
          ((w'.store rid).points ≠ [] →
            ((w'.store rid).points).getD (nearestIdx pt ((w'.store rid).points))
              ((0:ℝ), (0:ℝ), (0:ℝ)) ∈ (w'.store rid).points) ∧
          (∀ i < ((w'.store rid).points).length,
            distR (((w'.store rid).points).getD (nearestIdx pt ((w'.store rid).points))
              ((0:ℝ), (0:ℝ), (0:ℝ))) pt ≤
            distR (((w'.store rid).points).getD i ((0:ℝ), (0:ℝ), (0:ℝ))) pt) ∧
          (∀ i < nearestIdx pt ((w'.store rid).points),
            distR (((w'.store rid).points).getD (nearestIdx pt ((w'.store rid).points))
              ((0:ℝ), (0:ℝ), (0:ℝ))) pt <
            distR (((w'.store rid).points).getD i ((0:ℝ), (0:ℝ), (0:ℝ))) pt) := by
  rw [processPath] at h
  by_cases hshort : (match (w.store pid).startJoin with
    | some s => s.2 :: (w.store pid).points
    | none => (w.store pid).points).length < 2
  · rw [if_pos hshort] at h
    have hw' : w' = rewireStep w pid pid := (Except.ok.inj h).symm
    subst hw'
    obtain ⟨h1, h2, h3⟩ := rewireStep_spec w w pid pid (fun c _ _ => rfl) hobj
      (fun c hc => hc) rfl hptree
    refine ⟨pid, h1, Or.inl ⟨hshort, rfl⟩, ?_⟩
    intro c hc hcp
    obtain ⟨pt, hpt, hjoin⟩ := h3 c hc hcp hcp
    refine ⟨pt, hpt, ?_, ?_, ?_, ?_⟩
    · rw [h2]
      exact hjoin
    · intro hne
      exact getD_mem _ _ _ (nearestIdx_lt pt _ hne)
    · intro i hi
      exact nearestIdx_min pt _ _ i hi
    · intro i hi
      exact nearestIdx_first pt _ _ i hi
  · rw [if_neg hshort] at h
    rcases hrc : resampleCore (match (w.store pid).startJoin with
      | some s => s.2 :: (w.store pid).points
      | none => (w.store pid).points) spacing with e | newPts
    · rw [hrc] at h
      exact absurd h (by simp)
    · rw [hrc] at h
      have hw' : w' = rewireStep
          { store := fun j => if j = w.fresh then ⟨newPts, none⟩ else w.store j,
            objects := w.objects ++ [w.fresh],
            tree := w.tree,
            fresh := w.fresh + 1 } pid w.fresh := (Except.ok.inj h).symm
      subst hw'
      set wmid : World :=
        { store := fun j => if j = w.fresh then ⟨newPts, none⟩ else w.store j,
          objects := w.objects ++ [w.fresh],
          tree := w.tree,
          fresh := w.fresh + 1 } with hwm
      have hkeep : ∀ c, c ≠ pid → c ≠ w.fresh → wmid.store c = w.store c := by
        intro c _ hcf
        rw [hwm]
        simp [hcf]
      have hnodupm : wmid.objects.Nodup := by
        rw [hwm]
        simp only []
        rw [List.nodup_append]
        refine ⟨hobj, by simp, ?_⟩
        intro a ha hb
        rw [List.mem_singleton] at hb
        have := hfresh a ha
        omega
      have hsubm : ∀ c, c ∈ w.objects → c ∈ wmid.objects := by
        intro c hc
        rw [hwm]
        exact List.mem_append_left _ hc
      have htreem : wmid.tree = w.tree := by rw [hwm]
      obtain ⟨h1, h2, h3⟩ := rewireStep_spec w wmid pid w.fresh hkeep hnodupm
        hsubm htreem hptree
      have hmidpts : (wmid.store w.fresh).points = newPts := by
        rw [hwm]
        simp
      refine ⟨w.fresh, h1, Or.inr ⟨rfl, ?_⟩, ?_⟩
      · rw [h2, hmidpts]
      · intro c hc hcp
        have hcobj : c ∈ w.objects := by
          unfold childrenOf at hc
          exact (List.mem_filter.mp hc).1
        have hcf : c ≠ w.fresh := Nat.ne_of_lt (hfresh c hcobj)
        obtain ⟨pt, hpt, hjoin⟩ := h3 c hc hcp hcf
        refine ⟨pt, hpt, ?_, ?_, ?_, ?_⟩
        · rw [h2]
          exact hjoin
        · intro hne
          exact getD_mem _ _ _ (nearestIdx_lt pt _ hne)
        · intro i hi
          exact nearestIdx_min pt _ _ i hi
        · intro i hi
          exact nearestIdx_first pt _ _ i hi

/-- C7 (child re-join under tree resampling).  First conjunct, one loop
iteration of `resample_tree` on any original path `pid` of a world with
distinct object ids below the fresh counter: every branch that was a child of
`pid` has its start join rebound to the replacing branch `rid` (the same
object when fewer than 2 raw points remain, otherwise the freshly created path
holding `_resample`'s output, which is placed in the tree) at a point that is
an actual node of the new branch, namely the node of minimum Euclidean
distance to the child's stored attachment point, the first such node in scan
order on ties.  Second conjunct, the whole run: from any world satisfying the
start-join well-formedness invariant, when `resample_tree` succeeds every
path of the final tree that has a start join is joined to a path of the world
at a point that is an actual node of that path. -/
theorem c7_child_rejoin (spacing : ℝ) (w : World)
    (hobj : w.objects.Nodup)
    (hfresh : ∀ o ∈ w.objects, o < w.fresh) :
    (∀ (pid : Nat) (w' : World), pid ∈ w.tree → processPath spacing w pid = .ok w' →
      ∃ rid, rid ∈ w'.tree ∧
        (((match (w.store pid).startJoin with
           | some s => s.2 :: (w.store pid).points
           | none => (w.store pid).points).length < 2 ∧ rid = pid) ∨
         (rid = w.fresh ∧
          resampleCore (match (w.store pid).startJoin with
            | some s => s.2 :: (w.store pid).points
            | none => (w.store pid).points) spacing = .ok ((w'.store rid).points))) ∧
        ∀ c ∈ childrenOf w pid, c ≠ pid →
          ∃ pt, (w.store c).startJoin = some (pid, pt) ∧
            (w'.store c).startJoin = some (rid,
              ((w'.store rid).points).getD (nearestIdx pt ((w'.store rid).points))
                ((0:ℝ), (0:ℝ), (0:ℝ))) ∧
            ((w'.store rid).points ≠ [] →
              ((w'.store rid).points).getD (nearestIdx pt ((w'.store rid).points))
                ((0:ℝ), (0:ℝ), (0:ℝ)) ∈ (w'.store rid).points) ∧
            (∀ i < ((w'.store rid).points).length,
              distR (((w'.store rid).points).getD (nearestIdx pt ((w'.store rid).points))
                ((0:ℝ), (0:ℝ), (0:ℝ))) pt ≤
              distR (((w'.store rid).points).getD i ((0:ℝ), (0:ℝ), (0:ℝ))) pt) ∧
            (∀ i < nearestIdx pt ((w'.store rid).points),
              distR (((w'.store rid).points).getD (nearestIdx pt ((w'.store rid).points))
                ((0:ℝ), (0:ℝ), (0:ℝ))) pt <
              distR (((w'.store rid).points).getD i ((0:ℝ), (0:ℝ), (0:ℝ))) pt)) ∧
    (∀ wF : World, JoinInv w w.tree → resampleTree spacing w = .ok wF →
      ∀ c ∈ wF.tree, ∀ i q, (wF.store c).startJoin = some (i, q) →
        i ∈ wF.objects ∧ q ∈ (wF.store i).points) := by
  constructor
  · intro pid w' hptree h
    exact processPath_rejoin spacing w pid w' hobj hfresh hptree h
  · intro wF hJ hR
    exact joinInv_final wF (processList_joinInv spacing w.tree w wF hJ hR)

theorem c7_child_rejoin_witness :
    wTree.objects.Nodup ∧ (∀ o ∈ wTree.objects, o < wTree.fresh) ∧
    0 ∈ wTree.tree ∧ JoinInv wTree wTree.tree ∧
    (∃ w', processPath 10 wTree 0 = .ok w' ∧
      ∃ rid, rid ∈ w'.tree ∧
        (((match (wTree.store 0).startJoin with
           | some s => s.2 :: (wTree.store 0).points
           | none => (wTree.store 0).points).length < 2 ∧ rid = 0) ∨
         (rid = wTree.fresh ∧
          resampleCore (match (wTree.store 0).startJoin with
            | some s => s.2 :: (wTree.store 0).points
            | none => (wTree.store 0).points) 10 = .ok ((w'.store rid).points))) ∧
        ∀ c ∈ childrenOf wTree 0, c ≠ 0 →
          ∃ pt, (wTree.store c).startJoin = some (0, pt) ∧
            (w'.store c).startJoin = some (rid,
              ((w'.store rid).points).getD (nearestIdx pt ((w'.store rid).points))
                ((0:ℝ), (0:ℝ), (0:ℝ))) ∧
            ((w'.store rid).points ≠ [] →
              ((w'.store rid).points).getD (nearestIdx pt ((w'.store rid).points))
                ((0:ℝ), (0:ℝ), (0:ℝ)) ∈ (w'.store rid).points) ∧
            (∀ i < ((w'.store rid).points).length,
              distR (((w'.store rid).points).getD (nearestIdx pt ((w'.store rid).points))
                ((0:ℝ), (0:ℝ), (0:ℝ))) pt ≤
              distR (((w'.store rid).points).getD i ((0:ℝ), (0:ℝ), (0:ℝ))) pt) ∧
            (∀ i < nearestIdx pt ((w'.store rid).points),
              distR (((w'.store rid).points).getD (nearestIdx pt ((w'.store rid).points))
                ((0:ℝ), (0:ℝ), (0:ℝ))) pt <
              distR (((w'.store rid).points).getD i ((0:ℝ), (0:ℝ), (0:ℝ))) pt)) ∧
    (∃ wF, resampleTree 10 wTree = .ok wF ∧
      ∀ c ∈ wF.tree, ∀ i q, (wF.store c).startJoin = some (i, q) →
        i ∈ wF.objects ∧ q ∈ (wF.store i).points) := by
  have hd1 : distR ((0:ℝ), (0:ℝ), (0:ℝ)) ((10:ℝ), (0:ℝ), (0:ℝ)) = 10 := by
    apply distR_eval <;> norm_num
  have hded : dedupFirst [((0:ℝ), (0:ℝ), (0:ℝ)), ((10:ℝ), (0:ℝ), (0:ℝ))] =
      [((0:ℝ), (0:ℝ), (0:ℝ)), ((10:ℝ), (0:ℝ), (0:ℝ))] := by
    norm_num [dedupFirst, dedupAux, Prod.ext_iff]
  have hL : polyLen (dedupFirst [((0:ℝ), (0:ℝ), (0:ℝ)), ((10:ℝ), (0:ℝ), (0:ℝ))]) = 10 := by
    rw [hded, polyLen_cons₂, polyLen_one, hd1]
    norm_num
  have h2 : 2 ≤ (dedupFirst [((0:ℝ), (0:ℝ), (0:ℝ)), ((10:ℝ), (0:ℝ), (0:ℝ))]).length := by
    rw [hded]
    norm_num
  have hchar := resampleCore_ok_eq [((0:ℝ), (0:ℝ), (0:ℝ)), ((10:ℝ), (0:ℝ), (0:ℝ))] 10
    (by norm_num) h2
  rw [hL, hded] at hchar
  have hq : ⌊(10:ℝ) / 10⌋ = 1 := by norm_num [Int.floor_eq_iff]
  rw [hq] at hchar
  rw [if_pos (by norm_num)] at hchar
  rw [List.append_nil] at hchar
  rw [show (1:ℤ).toNat + 1 = 2 from rfl] at hchar
  rw [show List.range 2 = [0, 1] from rfl] at hchar
  simp only [List.map_cons, List.map_nil] at hchar
  rw [show ((0:ℕ):ℝ) * 10 = 0 by norm_num, show ((1:ℕ):ℝ) * 10 = 10 by norm_num] at hchar
  have e0 : polylineAt [((0:ℝ), (0:ℝ), (0:ℝ)), ((10:ℝ), (0:ℝ), (0:ℝ))] 0 =
      ((0:ℝ), (0:ℝ), (0:ℝ)) := polylineAt_zero _ _
  have e10 : polylineAt [((0:ℝ), (0:ℝ), (0:ℝ)), ((10:ℝ), (0:ℝ), (0:ℝ))] 10 =
      ((10:ℝ), (0:ℝ), (0:ℝ)) := by
    rw [polylineAt, hd1, if_pos (by norm_num)]
    norm_num
  rw [e0, e10] at hchar
  have hpp : processPath 10 wTree 0 =
      (match resampleCore [((0:ℝ), (0:ℝ), (0:ℝ)), ((10:ℝ), (0:ℝ), (0:ℝ))] 10 with
       | .error e => .error e
       | .ok newPts =>
         .ok (rewireStep
           { store := fun j => if j = wTree.fresh then ⟨newPts, none⟩ else wTree.store j
             objects := wTree.objects ++ [wTree.fresh]
             tree := wTree.tree
             fresh := wTree.fresh + 1 }
           0 wTree.fresh)) := rfl
  have hpp2 : processPath 10 wTree 0 = .ok (rewireStep
      { store := fun j => if j = wTree.fresh
          then ⟨[((0:ℝ), (0:ℝ), (0:ℝ)), ((10:ℝ), (0:ℝ), (0:ℝ))], none⟩
          else wTree.store j
        objects := wTree.objects ++ [wTree.fresh]
        tree := wTree.tree
        fresh := wTree.fresh + 1 }
      0 wTree.fresh) := by
    rw [hpp, hchar]
  have hd04 : distR ((0:ℝ), (0:ℝ), (0:ℝ)) ((4:ℝ), (0:ℝ), (0:ℝ)) = 4 := by
    apply distR_eval <;> norm_num
  have hd104 : distR ((10:ℝ), (0:ℝ), (0:ℝ)) ((4:ℝ), (0:ℝ), (0:ℝ)) = 6 := by
    apply distR_eval <;> norm_num
  have hd45 : distR ((4:ℝ), (0:ℝ), (0:ℝ)) ((4:ℝ), (5:ℝ), (0:ℝ)) = 5 := by
    apply distR_eval <;> norm_num
  have hni : nearestIdx ((4:ℝ), (0:ℝ), (0:ℝ))
      [((0:ℝ), (0:ℝ), (0:ℝ)), ((10:ℝ), (0:ℝ), (0:ℝ))] = 0 := by
    have hcond : distR ((0:ℝ), (0:ℝ), (0:ℝ)) ((4:ℝ), (0:ℝ), (0:ℝ)) ≤
        distR (List.getD [((10:ℝ), (0:ℝ), (0:ℝ))]
          (nearestIdx ((4:ℝ), (0:ℝ), (0:ℝ)) [((10:ℝ), (0:ℝ), (0:ℝ))])
          ((0:ℝ), (0:ℝ), (0:ℝ))) ((4:ℝ), (0:ℝ), (0:ℝ)) := by
      rw [show nearestIdx ((4:ℝ), (0:ℝ), (0:ℝ)) [((10:ℝ), (0:ℝ), (0:ℝ))] = 0 from rfl]
      rw [show List.getD [((10:ℝ), (0:ℝ), (0:ℝ))] 0 ((0:ℝ), (0:ℝ), (0:ℝ)) =
        ((10:ℝ), (0:ℝ), (0:ℝ)) from rfl]
      rw [hd04, hd104]
      norm_num
    show (if distR ((0:ℝ), (0:ℝ), (0:ℝ)) ((4:ℝ), (0:ℝ), (0:ℝ)) ≤
        distR (List.getD [((10:ℝ), (0:ℝ), (0:ℝ))]
          (nearestIdx ((4:ℝ), (0:ℝ), (0:ℝ)) [((10:ℝ), (0:ℝ), (0:ℝ))])
          ((0:ℝ), (0:ℝ), (0:ℝ))) ((4:ℝ), (0:ℝ), (0:ℝ))
      then 0 else nearestIdx ((4:ℝ), (0:ℝ), (0:ℝ)) [((10:ℝ), (0:ℝ), (0:ℝ))] + 1) = 0
    rw [if_pos hcond]
  have hrw : rewireStep
      { store := fun j => if j = 2 then
          (⟨[((0:ℝ), (0:ℝ), (0:ℝ)), ((10:ℝ), (0:ℝ), (0:ℝ))], none⟩ : SPath)
          else wTree.store j,
        objects := [0, 1, 2],
        tree := [0, 1],
        fresh := 3 } 0 2 = wT1 := by
    apply World_ext
    · funext j
      rcases j with _ | j
      · rfl
      rcases j with _ | j
      · show (⟨[((4:ℝ), (0:ℝ), (0:ℝ)), ((4:ℝ), (5:ℝ), (0:ℝ))],
            some (2, List.getD [((0:ℝ), (0:ℝ), (0:ℝ)), ((10:ℝ), (0:ℝ), (0:ℝ))]
              (nearestIdx ((4:ℝ), (0:ℝ), (0:ℝ))
                [((0:ℝ), (0:ℝ), (0:ℝ)), ((10:ℝ), (0:ℝ), (0:ℝ))])
              ((0:ℝ), (0:ℝ), (0:ℝ)))⟩ : SPath) = wT1.store 1
        rw [hni]
        rfl
      rcases j with _ | j
      · rfl
      · rfl
    · rfl
    · rfl
    · rfl
  have hst1 : processPath 10 wTree 0 = .ok wT1 := by
    rw [hpp2]
    exact congrArg Except.ok hrw
  have hded2 : dedupFirst [((0:ℝ), (0:ℝ), (0:ℝ)), ((4:ℝ), (0:ℝ), (0:ℝ)),
      ((4:ℝ), (5:ℝ), (0:ℝ))] =
      [((0:ℝ), (0:ℝ), (0:ℝ)), ((4:ℝ), (0:ℝ), (0:ℝ)), ((4:ℝ), (5:ℝ), (0:ℝ))] := by
    norm_num [dedupFirst, dedupAux, Prod.ext_iff]
  have hL2 : polyLen [((0:ℝ), (0:ℝ), (0:ℝ)), ((4:ℝ), (0:ℝ), (0:ℝ)),
      ((4:ℝ), (5:ℝ), (0:ℝ))] = 9 := by
    rw [polyLen_cons₂, polyLen_cons₂, polyLen_one, hd04, hd45]
    norm_num
  have h22 : 2 ≤ (dedupFirst [((0:ℝ), (0:ℝ), (0:ℝ)), ((4:ℝ), (0:ℝ), (0:ℝ)),
      ((4:ℝ), (5:ℝ), (0:ℝ))]).length := by
    rw [hded2]
    norm_num
  have hchar2 := resampleCore_ok_eq [((0:ℝ), (0:ℝ), (0:ℝ)), ((4:ℝ), (0:ℝ), (0:ℝ)),
    ((4:ℝ), (5:ℝ), (0:ℝ))] 10 (by norm_num) h22
  rw [hded2, hL2] at hchar2
  have hq2 : ⌊(9:ℝ) / 10⌋ = 0 := by
    norm_num [Int.floor_eq_iff]
  rw [hq2] at hchar2
  rw [if_neg (by norm_num)] at hchar2
  rw [show (0:ℤ).toNat + 1 = 1 from rfl] at hchar2
  rw [show List.range 1 = [0] from rfl] at hchar2
  simp only [List.map_cons, List.map_nil, List.cons_append, List.nil_append] at hchar2
  rw [show ((0:ℕ):ℝ) * 10 = 0 by norm_num] at hchar2
  have e0' : polylineAt [((0:ℝ), (0:ℝ), (0:ℝ)), ((4:ℝ), (0:ℝ), (0:ℝ)),
      ((4:ℝ), (5:ℝ), (0:ℝ))] 0 = ((0:ℝ), (0:ℝ), (0:ℝ)) := polylineAt_zero _ _
  have e9 : polylineAt [((0:ℝ), (0:ℝ), (0:ℝ)), ((4:ℝ), (0:ℝ), (0:ℝ)),
      ((4:ℝ), (5:ℝ), (0:ℝ))] 9 = ((4:ℝ), (5:ℝ), (0:ℝ)) := by
    rw [polylineAt, hd04, if_neg (by norm_num)]
    rw [show (9:ℝ) - 4 = 5 by norm_num]
    rw [polylineAt, hd45, if_pos (by norm_num)]
    norm_num
  rw [e0', e9] at hchar2
  have hpp2nd : processPath 10 wT1 1 =
      (match resampleCore [((0:ℝ), (0:ℝ), (0:ℝ)), ((4:ℝ), (0:ℝ), (0:ℝ)),
        ((4:ℝ), (5:ℝ), (0:ℝ))] 10 with
       | .error e => .error e
       | .ok newPts =>
         .ok (rewireStep
           { store := fun j => if j = wT1.fresh then ⟨newPts, none⟩ else wT1.store j
             objects := wT1.objects ++ [wT1.fresh]
             tree := wT1.tree
             fresh := wT1.fresh + 1 }
           1 wT1.fresh)) := rfl
  have hst2 : processPath 10 wT1 1 = .ok (rewireStep
      { store := fun j => if j = wT1.fresh
          then ⟨[((0:ℝ), (0:ℝ), (0:ℝ)), ((4:ℝ), (5:ℝ), (0:ℝ))], none⟩
          else wT1.store j
        objects := wT1.objects ++ [wT1.fresh]
        tree := wT1.tree
        fresh := wT1.fresh + 1 }
      1 wT1.fresh) := by
    rw [hpp2nd, hchar2]
  have he1 : processList 10 [0, 1] wTree = processList 10 [1] wT1 := by
    rw [show processList 10 [0, 1] wTree =
        (match processPath 10 wTree 0 with
         | .error e => .error e
         | .ok w' => processList 10 [1] w') from rfl, hst1]
  have he2 : processList 10 [1] wT1 = .ok (rewireStep
      { store := fun j => if j = wT1.fresh
          then ⟨[((0:ℝ), (0:ℝ), (0:ℝ)), ((4:ℝ), (5:ℝ), (0:ℝ))], none⟩
          else wT1.store j
        objects := wT1.objects ++ [wT1.fresh]
        tree := wT1.tree
        fresh := wT1.fresh + 1 }
      1 wT1.fresh) := by
    rw [show processList 10 [1] wT1 =
        (match processPath 10 wT1 1 with
         | .error e => .error e
         | .ok w' => processList 10 ([] : List Nat) w') from rfl, hst2]
    rfl
  have hrt : resampleTree 10 wTree = .ok (rewireStep
      { store := fun j => if j = wT1.fresh
          then ⟨[((0:ℝ), (0:ℝ), (0:ℝ)), ((4:ℝ), (5:ℝ), (0:ℝ))], none⟩
          else wT1.store j
        objects := wT1.objects ++ [wT1.fresh]
        tree := wT1.tree
        fresh := wT1.fresh + 1 }
      1 wT1.fresh) := by
    rw [show resampleTree 10 wTree = processList 10 [0, 1] wTree from rfl, he1, he2]
  have hJ : JoinInv wTree wTree.tree := by
    refine ⟨by decide, by decide, by decide, by decide, ?_⟩
    intro c hc i q hq
    have hc' : c = 0 ∨ c = 1 := by
      have hc2 : c ∈ ([0, 1] : List Nat) := hc
      rcases List.mem_cons.mp hc2 with h | h
      · exact Or.inl h
      · exact Or.inr (List.mem_singleton.mp h)
    rcases hc' with rfl | rfl
    · have hq0 : (none : Option (Nat × Point)) = some (i, q) := hq
      exact Option.noConfusion hq0
    · have hq1 : (some (0, ((4:ℝ), (0:ℝ), (0:ℝ))) : Option (Nat × Point)) = some (i, q) := hq
      have hq3 := Option.some.inj hq1
      injection hq3 with hi hqv
      refine ⟨?_, ?_, ?_, Or.inl ?_⟩
      · rw [← hi]
        decide
      · rw [← hi]
        decide
      · rw [← hi]
        show ([((0:ℝ), (0:ℝ), (0:ℝ)), ((10:ℝ), (0:ℝ), (0:ℝ))] : List Point) ≠ []
        simp
      · rw [← hi]
        decide
  exact ⟨by decide, by decide, by decide, hJ,
    ⟨_, hpp2, (c7_child_rejoin 10 wTree (by decide) (by decide)).1 0 _ (by decide) hpp2⟩,
    ⟨_, hrt, (c7_child_rejoin 10 wTree (by decide) (by decide)).2 _ hJ hrt⟩⟩

end ExaSpimSwc
